import Mathlib

/-!
# datastar-void: the message store, the broadcast tick and the ingest handler

A shallow embedding of `main.go`.

* `float64` values are the rationals they denote; every float64 operation is the exact
  operation followed by `float64`, rounding to the nearest binary64 value with ties to
  even. Overflow to infinity and NaN are not modelled: no value of this program comes
  near the binary64 range limit.
* A `time.Time` is its monotonic clock reading in nanoseconds, a `time.Duration` its
  number of nanoseconds.
* The map `payloadMap` is an association list; the order of the list is the order in
  which `range` visits the entries, which Go leaves unspecified, so statements are made
  for every order.
* Everything the handlers obtain from outside (the clock, the random source, the UUID
  generator, the session store, the parsed form) is an explicit argument.
-/

namespace DatastarVoid

/-! ## binary64 arithmetic -/

/-- Round a rational to the nearest integer, ties to the even neighbour. -/
def roundHalfEven (x : ℚ) : ℤ :=
  if x - ⌊x⌋ < 1 / 2 then ⌊x⌋
  else if 1 / 2 < x - ⌊x⌋ then ⌊x⌋ + 1
  else if ⌊x⌋ % 2 = 0 then ⌊x⌋ else ⌊x⌋ + 1

/-- Binary exponent of the binade of a magnitude, clamped below at the smallest normal
exponent of binary64 (below it the spacing of the subnormals stays constant). -/
def binade (x : ℚ) : ℤ := max (Int.log 2 x) (-1022)

/-- Spacing of the binary64 values in the binade of `x`: 52 fraction bits. -/
def ulp (x : ℚ) : ℚ := 2 ^ (binade x - 52)

/-- Rounding of a non-negative magnitude to the binary64 grid. -/
def roundMag (x : ℚ) : ℚ := roundHalfEven (x / ulp x) * ulp x

/-- The binary64 value nearest to `x` (sign and magnitude, ties to even); also the
conversion `float64(n)` of an integer. -/
def float64 (x : ℚ) : ℚ := if x < 0 then -roundMag (-x) else roundMag x

/-- Go `x + y` on float64 operands. -/
def fadd (x y : ℚ) : ℚ := float64 (x + y)

/-- Go `x - y` on float64 operands. -/
def fsub (x y : ℚ) : ℚ := float64 (x - y)

/-- Go `x * y` on float64 operands. -/
def fmul (x y : ℚ) : ℚ := float64 (x * y)

/-- Go `x / y` on float64 operands. -/
def fdiv (x y : ℚ) : ℚ := float64 (x / y)

/-- Go `c + r*k` on float64 operands. The language lets a compiler fuse the product and
the sum into one operation with a single rounding; `fused` says whether it did. -/
def mulAdd (fused : Bool) (c r k : ℚ) : ℚ :=
  if fused then float64 (c + r * k) else fadd c (fmul r k)

/-- `math.Round`: the nearest integer, halves away from zero. The result of rounding a
binary64 value is a binary64 value, so no further rounding takes place. -/
def Round (x : ℚ) : ℚ := if x < 0 then -((⌊-x + 1 / 2⌋ : ℤ) : ℚ) else ((⌊x + 1 / 2⌋ : ℤ) : ℚ)

/-! ## time -/

/-- `time.Second`, in nanoseconds. -/
def Second : Int := 1000000000

/-- Smallest Duration. -/
def minDuration : Int := -(2 ^ 63)

/-- Largest Duration. -/
def maxDuration : Int := 2 ^ 63 - 1

/-- `time.Since(t)` when the clock reads `now`: the elapsed nanoseconds, saturated to
the range of a Duration. -/
def Since (now t : Int) : Int :=
  if maxDuration < now - t then maxDuration
  else if now - t < minDuration then minDuration
  else now - t

/-- `Duration.Seconds`: `float64(d / Second) + float64(d % Second) / 1e9`, with Go's
truncating integer division. -/
def Seconds (d : Int) : ℚ :=
  let sec := Int.tdiv d Second
  let nsec := Int.tmod d Second
  fadd (float64 sec) (fdiv (float64 nsec) 1000000000)

/-! ## the message store -/

/-- A `uuid.UUID`, as the number its 128 bits spell. -/
abbrev UUID := Nat

/-- The struct `Payload`. `Created` is the reading of the monotonic clock, in
nanoseconds, that `time.Now()` returned; `X` and `Y` are float64 values. -/
structure Payload where
  Created : Int
  Message : String
  Colour : String
  X : ℚ
  Y : ℚ
deriving DecidableEq

/-- The map `payloadMap`. -/
abbrev PayloadMap := List (UUID × Payload)

/-- The keys of the map. -/
def mapKeys (m : PayloadMap) : List UUID := m.map Prod.fst

/-- `payloadMap[key]`. -/
def mapLookup (m : PayloadMap) (key : UUID) : Option Payload :=
  (m.find? (fun e => e.1 == key)).map Prod.snd

/-- `delete(payloadMap, key)`. -/
def mapDelete (m : PayloadMap) (key : UUID) : PayloadMap :=
  m.filter (fun e => e.1 != key)

/-- `payloadMap[key] = payload`: replaces the value of a key already present, adds the
key otherwise. -/
def mapAssign (m : PayloadMap) (key : UUID) (payload : Payload) : PayloadMap :=
  if m.any (fun e => e.1 == key) then
    m.map (fun e => if e.1 = key then (key, payload) else e)
  else m ++ [(key, payload)]

/-! ## the broadcast tick of `/void` -/

/-- One `<div class="message">` element of the fragment: the arguments handed to
`fmt.Sprintf` for it. -/
structure MessageDiv where
  id : UUID
  opacity : ℚ
  top : ℚ
  left : ℚ
  background : String
  text : String
deriving DecidableEq

/-- The clock as the tick sees it. `time.Since` reads the clock anew at every call, and
the loop body calls it up to twice for the entry it visits: `clock key 0` is the reading
of the expiry test (line 110) made while visiting `key`, `clock key 1` the reading of
the opacity computation (line 115). A tick visits every key once, so every run of the
loop is described by one such function. -/
abbrev Clock := UUID → Nat → Int

/-- The element the loop body appends for an entry it keeps: the opacity is
`1 - (time.Since(payload.Created).Seconds() / 10)`, from a fresh reading of the clock. -/
def renderDiv (clock : Clock) (key : UUID) (payload : Payload) : MessageDiv :=
  let opacity := fsub 1 (fdiv (Seconds (Since (clock key 1) payload.Created)) 10)
  ⟨key, opacity, payload.Y, payload.X, payload.Colour, payload.Message⟩

/-- The loop `for key, payload := range payloadMap` of the tick: `entries` are the
entries still to visit, `m` the map (shrinking as expired keys are deleted) and
`fragment` the elements rendered so far. -/
def scan (clock : Clock) : List (UUID × Payload) → PayloadMap → List MessageDiv →
    PayloadMap × List MessageDiv
  | [], m, fragment => (m, fragment)
  | (key, payload) :: rest, m, fragment =>
    if Seconds (Since (clock key 0) payload.Created) > 10 then
      scan clock rest (mapDelete m key) fragment
    else
      scan clock rest m (fragment ++ [renderDiv clock key payload])

/-- What a goroutine does to the mutex, to the shared map and to its SSE stream:
`mu.Lock()`, `mu.Unlock()`, a run of the loop that reads the map and deletes the expired
keys from it (with the map before and after the run), and a push of a fragment. -/
inductive Event where
  | lock
  | unlock
  | rangeLoop (before after : PayloadMap)
  | mergeFragments (fragment : List MessageDiv)
deriving DecidableEq

/-- The statements of the closure that `/void` runs at every tick, in source order. -/
inductive Stmt where
  | muLock
  | deferMuUnlock
  | rangeLoop
  | mergeFragments
deriving DecidableEq

/-- The body of the tick closure: `mu.Lock()`, `defer mu.Unlock()`, the loop over the
map, `sse.MergeFragments(fragment)`. -/
def tickBody : List Stmt :=
  [Stmt.muLock, Stmt.deferMuUnlock, Stmt.rangeLoop, Stmt.mergeFragments]

/-- State of one call of the closure: the shared map, the fragment built so far, the
calls deferred so far (the latest first), and the steps taken on the mutex, the
map and the stream, in the order they happened. -/
structure Frame where
  payloadMap : PayloadMap
  fragment : List MessageDiv
  deferred : List Event
  events : List Event

/-- One statement of the closure. An error of `MergeFragments` is logged and changes
nothing. -/
def step (clock : Clock) : Stmt → Frame → Frame
  | Stmt.muLock, f => ⟨f.payloadMap, f.fragment, f.deferred, f.events ++ [Event.lock]⟩
  | Stmt.deferMuUnlock, f => ⟨f.payloadMap, f.fragment, Event.unlock :: f.deferred, f.events⟩
  | Stmt.rangeLoop, f =>
    let r := scan clock f.payloadMap f.payloadMap f.fragment
    ⟨r.1, r.2, f.deferred, f.events ++ [Event.rangeLoop f.payloadMap r.1]⟩
  | Stmt.mergeFragments, f =>
    ⟨f.payloadMap, f.fragment, f.deferred, f.events ++ [Event.mergeFragments f.fragment]⟩

/-- A call of a function with the given body: the statements in order, then, on return,
the deferred calls, the latest first. -/
def call (clock : Clock) (body : List Stmt) (f : Frame) : Frame :=
  let g := body.foldl (fun acc s => step clock s acc) f
  ⟨g.payloadMap, g.fragment, [], g.events ++ g.deferred⟩

/-- One broadcast tick of `/void` on the map `m`, entered with the mutex free. The
fragment starts as the opening tag of the `messages` container, that is with no
element. -/
def tick (clock : Clock) (m : PayloadMap) : Frame :=
  call clock tickBody ⟨m, [], [], []⟩

/-- Whether the mutex is held after a sequence of steps, given whether it was before. -/
def heldAfter : Bool → List Event → Bool
  | h, [] => h
  | _, Event.lock :: es => heldAfter true es
  | _, Event.unlock :: es => heldAfter false es
  | h, Event.rangeLoop _ _ :: es => heldAfter h es
  | h, Event.mergeFragments _ :: es => heldAfter h es

/-- For every step of a sequence, in order, whether the mutex is held when the step is
taken, given whether it is held at the start. -/
def heldDuring : Bool → List Event → List Bool
  | _, [] => []
  | h, e :: es => h :: heldDuring (heldAfter h [e]) es

/-- Whether every run of the loop over the map in a sequence of steps happens with the
mutex held, given whether the mutex is held at the start. -/
def scansUnderLock : Bool → List Event → Bool
  | _, [] => true
  | _, Event.lock :: es => scansUnderLock true es
  | _, Event.unlock :: es => scansUnderLock false es
  | h, Event.rangeLoop _ _ :: es => h && scansUnderLock h es
  | h, Event.mergeFragments _ :: es => scansUnderLock h es

/-- Whether every push to the stream in a sequence of steps happens with the mutex
free, given whether the mutex is held at the start. -/
def pushesOutsideLock : Bool → List Event → Bool
  | _, [] => true
  | _, Event.lock :: es => pushesOutsideLock true es
  | _, Event.unlock :: es => pushesOutsideLock false es
  | h, Event.rangeLoop _ _ :: es => pushesOutsideLock h es
  | h, Event.mergeFragments _ :: es => !h && pushesOutsideLock h es

/-! ## sessions -/

/-- A value of a session: the dynamic type is `uint32` or something else. -/
inductive Value where
  | uint32 (n : Nat)
  | other (repr : String)
deriving DecidableEq

/-- The `Values` of a `sessions.Session`. -/
structure Session where
  Values : List (String × Value)
deriving DecidableEq

/-- `sess.Values[key]`. -/
def sessLookup (sess : Session) (key : String) : Option Value :=
  (sess.Values.find? (fun e => e.1 == key)).map Prod.snd

/-- `sess.Values[key] = v`. -/
def sessAssign (sess : Session) (key : String) (v : Value) : Session :=
  if sess.Values.any (fun e => e.1 == key) then
    ⟨sess.Values.map (fun e => if e.1 = key then (key, v) else e)⟩
  else ⟨sess.Values ++ [(key, v)]⟩

/-- What `upsertSessionID` returns and does: the two results, the session object after
the call (none when there is none) and whether `sess.Save` was called. -/
structure Upsert where
  id : Nat
  err : Option String
  session : Option Session
  saved : Bool
deriving DecidableEq

/-- The function `upsertSessionID`. `get` is the result of `store.Get(r, "connections")`,
`Uint32N n` the number `rand.Uint32N(n)` returns, `saveErr` the error of `sess.Save`. -/
def upsertSessionID (get : Except String Session) (Uint32N : Nat → Nat)
    (saveErr : Option String) : Upsert :=
  match get with
  | Except.error e => ⟨0, some ("failed to get session: " ++ e), none, false⟩
  | Except.ok sess =>
    match sessLookup sess "id" with
    | some (Value.uint32 id) => ⟨id, none, some sess, false⟩
    | _ =>
      let id := Uint32N 0xFFFFFF
      let sess1 := sessAssign sess "id" (Value.uint32 id)
      match saveErr with
      | some e => ⟨0, some ("failed to save session: " ++ e), some sess1, true⟩
      | none => ⟨id, none, some sess1, true⟩

/-! ## `fmt.Sprintf("#%06x", sessionID)` -/

/-- The digit loop of `fmt` for base 16, which fills its buffer from the right:
`for u >= 16 { buf[i] = digits[u&0xF]; u >>= 4 }; buf[i] = digits[u]`, with the lower
case digits. `fuel` bounds the number of shifts; 7 is enough for a uint32. -/
def fmtHexLoop : Nat → Nat → List Char → List Char
  | 0, u, buf => Nat.digitChar u :: buf
  | fuel + 1, u, buf =>
    if 16 ≤ u then fmtHexLoop fuel (u / 16) (Nat.digitChar (u % 16) :: buf)
    else Nat.digitChar u :: buf

/-- The verb `%06x` on a uint32: its hexadecimal digits in lower case, zeros in front
up to six digits. -/
def fmtHex06 (u : Nat) : List Char :=
  let digits := fmtHexLoop 7 u []
  List.replicate (6 - digits.length) '0' ++ digits

/-- The string `fmt.Sprintf("#%06x", sessionID)`. -/
def colourOf (sessionID : Nat) : String := String.mk ('#' :: fmtHex06 sessionID)

/-- Value of a hexadecimal digit, none for any other character. -/
def hexDigitValue (c : Char) : Option Nat :=
  if '0' ≤ c ∧ c ≤ '9' then some (c.toNat - '0'.toNat)
  else if 'a' ≤ c ∧ c ≤ 'f' then some (c.toNat - 'a'.toNat + 10)
  else if 'A' ≤ c ∧ c ≤ 'F' then some (c.toNat - 'A'.toNat + 10)
  else none

/-- The number a list of hexadecimal digits spells, most significant digit first. -/
def hexValue (cs : List Char) : Nat :=
  cs.foldl (fun acc c => acc * 16 + (hexDigitValue c).getD 0) 0

/-! ## the ingest handler of `/message` -/

/-- `r.MultipartForm.Value[name]`. -/
def formValue (form : List (String × List String)) (name : String) : List String :=
  ((form.find? (fun e => e.1 == name)).map Prod.snd).getD []

/-- A request to `/message`, as far as the handler looks at it: the result of
`store.Get`, the error of `sess.Save` should the handler call it, and the result of
`r.ParseMultipartForm` with the values of the form. -/
structure Request where
  session : Except String Session
  saveErr : Option String
  form : Except String (List (String × List String))

/-- What the handler draws from its environment while serving one request. -/
structure Env where
  Uint32N : Nat → Nat
  now : Int
  r1 : ℚ
  r2 : ℚ
  fused : Bool
  newID : UUID

/-- The expression `math.Round((base+r*80)*100) / 100`. -/
def position (fused : Bool) (base r : ℚ) : ℚ :=
  fdiv (Round (fmul (mulAdd fused base r 80) 100)) 100

/-- The `Payload` literal of the handler. -/
def newPayload (env : Env) (sessionID : Nat) (msg : String) : Payload :=
  ⟨env.now, msg, colourOf sessionID, position env.fused 10 env.r1, position env.fused 5 env.r2⟩

/-- What the handler leaves behind: the status of the response, the map, and the outcome
of `upsertSessionID`. -/
structure Handled where
  status : Nat
  payloadMap : PayloadMap
  upsert : Upsert

/-- The handler of `/message`. A handler that writes nothing answers 200. -/
def handleMessage (req : Request) (env : Env) (m : PayloadMap) : Handled :=
  let up := upsertSessionID req.session env.Uint32N req.saveErr
  match up.err with
  | some _ => ⟨500, m, up⟩
  | none =>
    match req.form with
    | Except.error _ => ⟨400, m, up⟩
    | Except.ok form =>
      match formValue form "message" with
      | [] => ⟨400, m, up⟩
      | msg :: _ =>
        if msg = "" then ⟨400, m, up⟩
        else ⟨200, mapAssign m env.newID (newPayload env up.id msg), up⟩

/-- Requests served one after the other; the mutex lets no two inserts overlap. -/
def handleAll : List (Request × Env) → PayloadMap → PayloadMap
  | [], m => m
  | (req, env) :: rest, m => handleAll rest (handleMessage req env m).payloadMap

/-! ## inputs of the examples -/

/-- A clock that stands still at `now` during a tick. -/
def frozenClock (now : Int) : Clock := fun _ _ => now

/-- A clock that reads ten seconds at an expiry test and 100 ns more at the opacity
computation that follows it. -/
def driftingClock : Clock := fun _ i => 10 * Second + 100 * i

/-- The message "hello" of session 0x123ABC at position (10, 5), created at `created`. -/
def hello (created : Int) : Payload := ⟨created, "hello", "#123abc", 10, 5⟩

/-- Two records, created at 1 s and at 0 s. -/
def twoRecords : PayloadMap := [(1, hello Second), (2, hello 0)]

/-- A random source whose draw below `n` is 0x123ABC reduced below `n`. -/
def fixedDraw : Nat → Nat := fun n => 0x123ABC % n

/-- A request with a session store failure and a form without a `message` value. -/
def brokenSessionRequest : Request :=
  ⟨Except.error "securecookie: the value is not valid", none, Except.ok []⟩

/-- The request of a new client that submits "hello". -/
def helloRequest : Request := ⟨Except.ok ⟨[]⟩, none, Except.ok [("message", ["hello"])]⟩

/-- An environment: the draw of the id, the time 0, the random numbers 1/4 and 1/2, no
fused multiply-add, and the UUID the generator returns. -/
def envWith (newID : UUID) : Env := ⟨fixedDraw, 0, 1 / 4, 1 / 2, false, newID⟩

/-- The request of a new client that submits an empty message. -/
def emptyMessageRequest : Request := ⟨Except.ok ⟨[]⟩, none, Except.ok [("message", [""])]⟩

/-! ## Facts about binary64 rounding and durations -/

theorem roundHalfEven_intCast (n : ℤ) : roundHalfEven (n : ℚ) = n := by
  simp [roundHalfEven]

theorem floor_le_roundHalfEven (x : ℚ) : ⌊x⌋ ≤ roundHalfEven x := by
  unfold roundHalfEven
  split_ifs <;> omega

theorem roundHalfEven_le_floor_succ (x : ℚ) : roundHalfEven x ≤ ⌊x⌋ + 1 := by
  unfold roundHalfEven
  split_ifs <;> omega

theorem roundHalfEven_mono {x y : ℚ} (h : x ≤ y) : roundHalfEven x ≤ roundHalfEven y := by
  have hf : ⌊x⌋ ≤ ⌊y⌋ := Int.floor_mono h
  rcases lt_or_eq_of_le hf with hlt | heq
  · calc roundHalfEven x ≤ ⌊x⌋ + 1 := roundHalfEven_le_floor_succ x
      _ ≤ ⌊y⌋ := hlt
      _ ≤ roundHalfEven y := floor_le_roundHalfEven y
  · unfold roundHalfEven
    rw [← heq]
    have hxy : x - (⌊x⌋ : ℚ) ≤ y - (⌊x⌋ : ℚ) := by linarith
    split_ifs <;> first | omega | (exfalso; linarith)

theorem roundHalfEven_le_of_le_int {x : ℚ} {n : ℤ} (h : x ≤ n) : roundHalfEven x ≤ n := by
  have := roundHalfEven_mono h
  rwa [roundHalfEven_intCast] at this

theorem int_le_roundHalfEven {x : ℚ} {n : ℤ} (h : (n : ℚ) ≤ x) : n ≤ roundHalfEven x := by
  have := roundHalfEven_mono h
  rwa [roundHalfEven_intCast] at this

theorem ulp_pos (x : ℚ) : 0 < ulp x := by
  unfold ulp
  positivity

theorem binade_mono {x y : ℚ} (hx : 0 < x) (h : x ≤ y) : binade x ≤ binade y := by
  unfold binade
  exact max_le_max (Int.log_mono_right hx h) le_rfl

theorem roundMag_nonneg {x : ℚ} (hx : 0 ≤ x) : 0 ≤ roundMag x := by
  unfold roundMag
  have h0 : ((0 : ℤ) : ℚ) ≤ x / ulp x := by
    simpa using div_nonneg hx (ulp_pos x).le
  have := int_le_roundHalfEven h0
  exact mul_nonneg (by exact_mod_cast this) (ulp_pos x).le

theorem roundMag_zero : roundMag 0 = 0 := by
  simp [roundMag, roundHalfEven]

/-- A positive magnitude lies below the top of its binade. -/
theorem lt_top_binade {x : ℚ} : x < 2 ^ (binade x + 1) := by
  have h1 : x < (2 : ℚ) ^ (Int.log 2 x + 1) := by
    simpa using Int.lt_zpow_succ_log_self (R := ℚ) (b := 2) (by norm_num) x
  have h2 : (2 : ℚ) ^ (Int.log 2 x + 1) ≤ 2 ^ (binade x + 1) := by
    apply zpow_le_zpow_right₀ (by norm_num)
    unfold binade
    have := le_max_left (Int.log 2 x) (-1022)
    omega
  exact lt_of_lt_of_le h1 h2

theorem roundMag_le_top {x : ℚ} : roundMag x ≤ 2 ^ (binade x + 1) := by
  unfold roundMag
  have hu := ulp_pos x
  have hq : x / ulp x ≤ ((2 ^ 53 : ℤ) : ℚ) := by
    rw [div_le_iff₀ hu]
    have : ((2 ^ 53 : ℤ) : ℚ) * ulp x = 2 ^ (binade x + 1) := by
      unfold ulp
      rw [show binade x + 1 = 53 + (binade x - 52) by ring, zpow_add₀ (by norm_num)]
      norm_num
    rw [this]
    exact lt_top_binade.le
  have h := roundHalfEven_le_of_le_int hq
  have h' : (roundHalfEven (x / ulp x) : ℚ) ≤ ((2 ^ 53 : ℤ) : ℚ) := by exact_mod_cast h
  calc (roundHalfEven (x / ulp x) : ℚ) * ulp x ≤ ((2 ^ 53 : ℤ) : ℚ) * ulp x :=
        mul_le_mul_of_nonneg_right h' hu.le
    _ = 2 ^ (binade x + 1) := by
      unfold ulp
      rw [show binade x + 1 = 53 + (binade x - 52) by ring, zpow_add₀ (by norm_num)]
      norm_num

theorem bot_le_roundMag {x : ℚ} (hx : 0 < x) (hb : -1022 < binade x) :
    2 ^ binade x ≤ roundMag x := by
  have hlog : binade x = Int.log 2 x := by
    unfold binade at hb ⊢
    rcases max_cases (Int.log 2 x) (-1022) with ⟨h, _⟩ | ⟨h, _⟩
    · exact h
    · omega
  have hx2 : (2 : ℚ) ^ binade x ≤ x := by
    rw [hlog]
    simpa using Int.zpow_log_le_self (R := ℚ) (b := 2) (by norm_num) hx
  unfold roundMag
  have hu := ulp_pos x
  have hpow : ((2 ^ 52 : ℤ) : ℚ) * ulp x = 2 ^ binade x := by
    unfold ulp
    rw [show binade x = 52 + (binade x - 52) by ring, zpow_add₀ (by norm_num)]
    norm_num
  have hq : ((2 ^ 52 : ℤ) : ℚ) ≤ x / ulp x := by
    rw [le_div_iff₀ hu, hpow]
    exact hx2
  have h := int_le_roundHalfEven hq
  have h' : ((2 ^ 52 : ℤ) : ℚ) ≤ (roundHalfEven (x / ulp x) : ℚ) := by exact_mod_cast h
  calc (2 : ℚ) ^ binade x = ((2 ^ 52 : ℤ) : ℚ) * ulp x := hpow.symm
    _ ≤ (roundHalfEven (x / ulp x) : ℚ) * ulp x := mul_le_mul_of_nonneg_right h' hu.le

theorem roundMag_mono {x y : ℚ} (hx : 0 ≤ x) (h : x ≤ y) : roundMag x ≤ roundMag y := by
  rcases eq_or_lt_of_le hx with h0 | hpos
  · rw [← h0, roundMag_zero]
    exact roundMag_nonneg (hx.trans h)
  · have hb := binade_mono hpos h
    rcases eq_or_lt_of_le hb with heq | hlt
    · unfold roundMag
      have hu : ulp x = ulp y := by unfold ulp; rw [heq]
      rw [hu]
      have hq : x / ulp y ≤ y / ulp y := div_le_div_of_nonneg_right h (ulp_pos y).le
      have := roundHalfEven_mono hq
      exact mul_le_mul_of_nonneg_right (by exact_mod_cast this) (ulp_pos y).le
    · have hy : 0 < y := lt_of_lt_of_le hpos h
      have hby : -1022 < binade y := by
        have : -1022 ≤ binade x := le_max_right _ _
        omega
      calc roundMag x ≤ 2 ^ (binade x + 1) := roundMag_le_top
        _ ≤ 2 ^ binade y := zpow_le_zpow_right₀ (by norm_num) (by omega)
        _ ≤ roundMag y := bot_le_roundMag hy hby

theorem float64_mono {x y : ℚ} (h : x ≤ y) : float64 x ≤ float64 y := by
  unfold float64
  split_ifs with hx hy hy
  · exact neg_le_neg (roundMag_mono (by linarith) (by linarith))
  · have h1 := roundMag_nonneg (x := -x) (by linarith)
    have h2 := roundMag_nonneg (x := y) (by linarith)
    linarith
  · exfalso; linarith
  · exact roundMag_mono (by linarith) h

theorem binade_le_of_lt {x : ℚ} {e : ℤ} (hx : 0 < x) (h : x < 2 ^ e) (he : -1022 < e) :
    binade x < e := by
  unfold binade
  have h' : x < ((2 : ℕ) : ℚ) ^ e := by simpa using h
  have := (Int.lt_zpow_iff_log_lt (R := ℚ) (b := 2) (by norm_num) hx).1 h'
  exact max_lt this he

/-- A magnitude `m / 2^k` with a significand below `2^53` and `k ≤ 1074` is on the grid. -/
theorem roundMag_exact (m : ℤ) (k : ℕ) (h0 : 0 ≤ m) (hm : m < 2 ^ 53) (hk : k ≤ 1074) :
    roundMag ((m : ℚ) / 2 ^ k) = (m : ℚ) / 2 ^ k := by
  rcases eq_or_lt_of_le h0 with hz | hpos
  · rw [← hz]; simp [roundMag_zero]
  · have hx : (0 : ℚ) < (m : ℚ) / 2 ^ k := by positivity
    have hlt : (m : ℚ) / 2 ^ k < 2 ^ ((53 : ℤ) - k) := by
      rw [zpow_sub₀ (by norm_num), zpow_natCast]
      apply div_lt_div_of_pos_right _ (by positivity)
      exact_mod_cast hm
    have hb := binade_le_of_lt hx hlt (by omega)
    obtain ⟨j, hj⟩ : ∃ j : ℕ, (j : ℤ) = -(k : ℤ) - (binade ((m : ℚ) / 2 ^ k) - 52) :=
      ⟨(-(k : ℤ) - (binade ((m : ℚ) / 2 ^ k) - 52)).toNat, Int.toNat_of_nonneg (by omega)⟩
    have hq : (m : ℚ) / 2 ^ k / ulp ((m : ℚ) / 2 ^ k) = ((m * 2 ^ j : ℤ) : ℚ) := by
      unfold ulp
      generalize binade ((m : ℚ) / 2 ^ k) = b at hj
      rw [div_div, ← zpow_natCast (2 : ℚ) k, ← zpow_add₀ (by norm_num)]
      push_cast
      rw [← zpow_natCast (2 : ℚ) j, hj, div_eq_mul_inv, ← zpow_neg]
      congr 2
      ring
    unfold roundMag
    rw [hq, roundHalfEven_intCast, ← hq]
    exact div_mul_cancel₀ _ (ulp_pos _).ne'

theorem float64_exact (m : ℤ) (k : ℕ) (hm : |m| < 2 ^ 53) (hk : k ≤ 1074) :
    float64 ((m : ℚ) / 2 ^ k) = (m : ℚ) / 2 ^ k := by
  have hm' := abs_lt.1 hm
  unfold float64
  split_ifs with hneg
  · have hmneg : m < 0 := by
      by_contra hc
      push_neg at hc
      have : (0 : ℚ) ≤ (m : ℚ) / 2 ^ k := by positivity
      linarith
    have := roundMag_exact (-m) k (by omega) (by omega) hk
    push_cast at this
    rw [neg_div] at this
    rw [this]; ring
  · have hmn : 0 ≤ m := by
      by_contra hc
      push_neg at hc
      have : (m : ℚ) / 2 ^ k < 0 := by
        apply div_neg_of_neg_of_pos _ (by positivity)
        exact_mod_cast hc
      exact hneg this
    exact roundMag_exact m k hmn hm'.2 hk

theorem float64_int (m : ℤ) (hm : |m| < 2 ^ 53) : float64 (m : ℚ) = m := by
  simpa using float64_exact m 0 hm (by norm_num)

example : float64 10 = 10 := by simpa using float64_int 10 (by norm_num)
example : float64 (1/2) = 1/2 := by simpa using float64_exact 1 1 (by norm_num) (by norm_num)

theorem float64_zero : float64 0 = 0 := by
  simpa using float64_int 0 (by norm_num)

theorem float64_nonneg {x : ℚ} (h : 0 ≤ x) : 0 ≤ float64 x := by
  simpa [float64_zero] using float64_mono h

theorem float64_nonpos {x : ℚ} (h : x ≤ 0) : float64 x ≤ 0 := by
  simpa [float64_zero] using float64_mono h

theorem float64_le_int {x : ℚ} (n : ℤ) (hn : |n| < 2 ^ 53) (h : x ≤ n) : float64 x ≤ n := by
  simpa [float64_int n hn] using float64_mono h

theorem int_le_float64 {x : ℚ} (n : ℤ) (hn : |n| < 2 ^ 53) (h : (n : ℚ) ≤ x) :
    (n : ℚ) ≤ float64 x := by
  simpa [float64_int n hn] using float64_mono h

theorem Since_range (now t : Int) : minDuration ≤ Since now t ∧ Since now t ≤ maxDuration := by
  unfold Since minDuration maxDuration
  split_ifs <;> constructor <;> omega

theorem Since_gt_iff (now t : Int) : 10 * Second < Since now t ↔ 10 * Second < now - t := by
  unfold Since minDuration maxDuration Second
  split_ifs <;> constructor <;> intro h <;> omega

theorem Seconds_le_ten {d : Int} (hd : d ≤ 10 * Second) (hmin : minDuration ≤ d) :
    Seconds d ≤ 10 := by
  unfold Second minDuration at *
  unfold Seconds fadd fdiv Second
  dsimp only
  rcases lt_or_le d 0 with hneg | hpos
  · have h1 : Int.tdiv d 1000000000 ≤ 0 := by
      have := Int.neg_tdiv (-d) 1000000000
      rw [neg_neg] at this
      rw [this, Int.tdiv_eq_ediv (by omega) (by norm_num)]
      omega
    have h2 : Int.tmod d 1000000000 ≤ 0 := by
      rw [Int.tmod_def]
      have := Int.neg_tdiv (-d) 1000000000
      rw [neg_neg] at this
      rw [this, Int.tdiv_eq_ediv (by omega) (by norm_num)]
      omega
    have a1 : float64 (Int.tdiv d 1000000000 : ℚ) ≤ 0 := float64_nonpos (by exact_mod_cast h1)
    have a2 : float64 (Int.tmod d 1000000000 : ℚ) ≤ 0 := float64_nonpos (by exact_mod_cast h2)
    have a3 : float64 (float64 (Int.tmod d 1000000000 : ℚ) / 1000000000) ≤ 0 :=
      float64_nonpos (div_nonpos_of_nonpos_of_nonneg a2 (by norm_num))
    have := float64_nonpos (add_nonpos a1 a3)
    linarith
  · rw [Int.tdiv_eq_ediv hpos (by norm_num), Int.tmod_eq_emod hpos (by norm_num)]
    have e1 : float64 ((d / 1000000000 : ℤ) : ℚ) = ((d / 1000000000 : ℤ) : ℚ) :=
      float64_int _ (by rw [abs_lt]; constructor <;> omega)
    have e2 : float64 ((d % 1000000000 : ℤ) : ℚ) = ((d % 1000000000 : ℤ) : ℚ) :=
      float64_int _ (by rw [abs_lt]; constructor <;> omega)
    rw [e1, e2]
    rcases lt_or_le d 10000000000 with hlt | hge
    · have hs : (d / 1000000000 : ℤ) ≤ 9 := by omega
      have hn : (d % 1000000000 : ℤ) ≤ 1000000000 := by omega
      have hq : float64 (((d % 1000000000 : ℤ) : ℚ) / 1000000000) ≤ ((1 : ℤ) : ℚ) := by
        apply float64_le_int 1 (by norm_num)
        rw [div_le_iff₀ (by norm_num)]
        have : ((d % 1000000000 : ℤ) : ℚ) ≤ ((1000000000 : ℤ) : ℚ) := by exact_mod_cast hn
        simpa using this
      have hs' : ((d / 1000000000 : ℤ) : ℚ) ≤ 9 := by exact_mod_cast hs
      have := float64_le_int (x := ((d / 1000000000 : ℤ) : ℚ) +
        float64 (((d % 1000000000 : ℤ) : ℚ) / 1000000000)) 10 (by norm_num)
        (by push_cast at hq ⊢; linarith)
      simpa using this
    · have hd10 : d = 10000000000 := by omega
      subst hd10
      norm_num [float64_zero]
      have h10 : float64 10 = 10 := by simpa using float64_int 10 (by norm_num)
      rw [h10]

/-- A duration above ten seconds reads as at least `10 + 2^-30` seconds. -/
theorem Seconds_ge_of_expired {d : Int} (hd : 10 * Second < d) (hmax : d ≤ maxDuration) :
    ((10737418241 : ℤ) : ℚ) / 2 ^ 30 ≤ Seconds d := by
  unfold Second maxDuration at *
  unfold Seconds fadd fdiv Second
  dsimp only
  have hpos : 0 ≤ d := by omega
  rw [Int.tdiv_eq_ediv hpos (by norm_num), Int.tmod_eq_emod hpos (by norm_num)]
  have e1 : float64 ((d / 1000000000 : ℤ) : ℚ) = ((d / 1000000000 : ℤ) : ℚ) :=
    float64_int _ (by rw [abs_lt]; constructor <;> omega)
  have e2 : float64 ((d % 1000000000 : ℤ) : ℚ) = ((d % 1000000000 : ℤ) : ℚ) :=
    float64_int _ (by rw [abs_lt]; constructor <;> omega)
  rw [e1, e2]
  have hn0 : (0 : ℤ) ≤ d % 1000000000 := by omega
  have hq0 : 0 ≤ float64 (((d % 1000000000 : ℤ) : ℚ) / 1000000000) :=
    float64_nonneg (div_nonneg (by exact_mod_cast hn0) (by norm_num))
  -- the exact sum is at least 10 + 2^-30, which is a binary64 value
  have hgrid : float64 ((10737418241 : ℤ) / 2 ^ 30) = (10737418241 : ℤ) / 2 ^ 30 :=
    float64_exact 10737418241 30 (by norm_num) (by norm_num)
  have hsum : ((10737418241 : ℤ) : ℚ) / 2 ^ 30 ≤ ((d / 1000000000 : ℤ) : ℚ) +
      float64 (((d % 1000000000 : ℤ) : ℚ) / 1000000000) := by
    rcases lt_or_le (d / 1000000000) 11 with h10 | h11
    · have hs : d / 1000000000 = 10 := by omega
      have hn : (1 : ℤ) ≤ d % 1000000000 := by omega
      have hq : ((1 : ℤ) : ℚ) / 2 ^ 30 ≤ float64 (((d % 1000000000 : ℤ) : ℚ) / 1000000000) := by
        have hg : float64 (((1 : ℤ) : ℚ) / 2 ^ 30) = ((1 : ℤ) : ℚ) / 2 ^ 30 :=
          float64_exact 1 30 (by norm_num) (by norm_num)
        rw [← hg]
        apply float64_mono
        have : ((1 : ℤ) : ℚ) ≤ ((d % 1000000000 : ℤ) : ℚ) := by exact_mod_cast hn
        rw [div_le_div_iff₀ (by norm_num) (by norm_num)]
        push_cast at this ⊢
        nlinarith
      rw [hs]
      push_cast at hq ⊢
      linarith
    · have hs : ((11 : ℤ) : ℚ) ≤ ((d / 1000000000 : ℤ) : ℚ) := by exact_mod_cast h11
      push_cast at hs ⊢
      have : (10737418241 : ℚ) / 2 ^ 30 ≤ 11 := by norm_num
      linarith
  have := float64_mono hsum
  rw [hgrid] at this
  exact this

theorem ten_lt_Seconds {d : Int} (hd : 10 * Second < d) (hmax : d ≤ maxDuration) :
    10 < Seconds d := by
  have := Seconds_ge_of_expired hd hmax
  have h10 : (10 : ℚ) < ((10737418241 : ℤ) : ℚ) / 2 ^ 30 := by norm_num
  linarith

theorem Seconds_nonneg {d : Int} (hd : 0 ≤ d) : 0 ≤ Seconds d := by
  unfold Seconds fadd fdiv Second
  dsimp only
  have h1 : (0 : ℤ) ≤ Int.tdiv d 1000000000 := Int.tdiv_nonneg hd (by norm_num)
  have h2 : (0 : ℤ) ≤ Int.tmod d 1000000000 := Int.tmod_nonneg _ hd
  have a1 : 0 ≤ float64 (Int.tdiv d 1000000000 : ℚ) := float64_nonneg (by exact_mod_cast h1)
  have a2 : 0 ≤ float64 (Int.tmod d 1000000000 : ℚ) := float64_nonneg (by exact_mod_cast h2)
  have a3 : 0 ≤ float64 (float64 (Int.tmod d 1000000000 : ℚ) / 1000000000) :=
    float64_nonneg (div_nonneg a2 (by norm_num))
  exact float64_nonneg (add_nonneg a1 a3)

theorem Seconds_five : Seconds (5 * Second) = 5 := by
  have h1 : Int.tdiv (5 * Second) Second = 5 := by decide
  have h2 : Int.tmod (5 * Second) Second = 0 := by decide
  unfold Seconds fadd fdiv
  dsimp only
  rw [h1, h2]
  have e5 : float64 ((5 : ℤ) : ℚ) = ((5 : ℤ) : ℚ) := float64_int 5 (by norm_num)
  have e0 : float64 ((0 : ℤ) : ℚ) = ((0 : ℤ) : ℚ) := float64_int 0 (by norm_num)
  rw [e5, e0]
  norm_num [float64_zero]
  simpa using float64_int 5 (by norm_num)

/-- The expiry test of the scan, `time.Since(Created).Seconds() > 10`, decides exactly
whether more than ten seconds of clock time have elapsed. -/
theorem expired_iff (now t : Int) : 10 < Seconds (Since now t) ↔ 10 * Second < now - t := by
  rw [← Since_gt_iff]
  obtain ⟨hmin, hmax⟩ := Since_range now t
  constructor
  · intro h
    by_contra hc
    push_neg at hc
    have := Seconds_le_ten hc hmin
    linarith
  · intro h
    exact ten_lt_Seconds h hmax

/-- The opacity formula of the tick at an age read from the clock: non-negative exactly
up to ten seconds. -/
theorem opacity_nonneg_iff (now t : Int) :
    0 ≤ fsub 1 (fdiv (Seconds (Since now t)) 10) ↔ now - t ≤ 10 * Second := by
  obtain ⟨hmin, hmax⟩ := Since_range now t
  unfold fsub fdiv
  constructor
  · intro h
    by_contra hc
    push_neg at hc
    have hs := Seconds_ge_of_expired ((Since_gt_iff now t).2 hc) hmax
    have hgrid : float64 ((17179869185 : ℤ) / 2 ^ 34) = (17179869185 : ℤ) / 2 ^ 34 :=
      float64_exact 17179869185 34 (by norm_num) (by norm_num)
    have hq : ((17179869185 : ℤ) : ℚ) / 2 ^ 34 ≤ float64 (Seconds (Since now t) / 10) := by
      rw [← hgrid]
      apply float64_mono
      rw [le_div_iff₀ (by norm_num)]
      have : ((17179869185 : ℤ) : ℚ) / 2 ^ 34 * 10 ≤ ((10737418241 : ℤ) : ℚ) / 2 ^ 30 := by
        norm_num
      linarith
    have hneg : float64 (-((1 : ℤ) : ℚ) / 2 ^ 34) = -((1 : ℤ) : ℚ) / 2 ^ 34 := by
      have := float64_exact (-1) 34 (by norm_num) (by norm_num)
      simpa using this
    have hle : 1 - float64 (Seconds (Since now t) / 10) ≤ -((1 : ℤ) : ℚ) / 2 ^ 34 := by
      have : (1 : ℚ) - ((17179869185 : ℤ) : ℚ) / 2 ^ 34 = -((1 : ℤ) : ℚ) / 2 ^ 34 := by norm_num
      linarith
    have := float64_mono hle
    rw [hneg] at this
    have hlt : -((1 : ℤ) : ℚ) / 2 ^ 34 < 0 := by norm_num
    linarith
  · intro h
    have hs : Seconds (Since now t) ≤ 10 := by
      by_contra hc
      push_neg at hc
      have := (expired_iff now t).1 hc
      omega
    have hq : float64 (Seconds (Since now t) / 10) ≤ ((1 : ℤ) : ℚ) := by
      apply float64_le_int 1 (by norm_num)
      rw [div_le_iff₀ (by norm_num)]
      push_cast
      linarith
    apply float64_nonneg
    push_cast at hq
    linarith

theorem opacity_le_one (now t : Int) (h : t ≤ now) :
    fsub 1 (fdiv (Seconds (Since now t)) 10) ≤ 1 := by
  unfold fsub fdiv
  have hd : 0 ≤ Since now t := by
    unfold Since maxDuration minDuration
    split_ifs <;> omega
  have hs := Seconds_nonneg hd
  have hq : 0 ≤ float64 (Seconds (Since now t) / 10) :=
    float64_nonneg (div_nonneg hs (by norm_num))
  have := float64_le_int (x := 1 - float64 (Seconds (Since now t) / 10)) 1 (by norm_num)
    (by push_cast; linarith)
  simpa using this

theorem opacity_five_seconds (now t : Int) (h : now - t = 5 * Second) :
    fsub 1 (fdiv (Seconds (Since now t)) 10) = 1 / 2 := by
  have hd : Since now t = 5 * Second := by
    unfold Since maxDuration minDuration
    rw [h]
    decide
  rw [hd, Seconds_five]
  unfold fsub fdiv
  have half : float64 (((1 : ℤ) : ℚ) / 2 ^ 1) = ((1 : ℤ) : ℚ) / 2 ^ 1 :=
    float64_exact 1 1 (by norm_num) (by norm_num)
  have e1 : float64 (5 / 10) = 1 / 2 := by
    have : (5 : ℚ) / 10 = ((1 : ℤ) : ℚ) / 2 ^ 1 := by norm_num
    rw [this, half]; norm_num
  rw [e1]
  have e2 : float64 (1 - 1 / 2) = 1 / 2 := by
    have : (1 : ℚ) - 1 / 2 = ((1 : ℤ) : ℚ) / 2 ^ 1 := by norm_num
    rw [this, half]; norm_num
  exact e2

theorem binade_eq {x : ℚ} {e : ℤ} (hx : 0 < x) (he : -1022 ≤ e) (hlo : (2 : ℚ) ^ e ≤ x)
    (hhi : x < 2 ^ (e + 1)) : binade x = e := by
  have h1 : e ≤ Int.log 2 x := by
    have hlo2 : ((2 : ℕ) : ℚ) ^ e ≤ x := by simpa using hlo
    exact (Int.zpow_le_iff_le_log (R := ℚ) (b := 2) (by norm_num) hx).1 hlo2
  have h2 : Int.log 2 x < e + 1 := by
    have hhi2 : x < ((2 : ℕ) : ℚ) ^ (e + 1) := by simpa using hhi
    exact (Int.lt_zpow_iff_log_lt (R := ℚ) (b := 2) (by norm_num) hx).1 hhi2
  unfold binade
  rw [max_eq_left (by omega)]
  omega

/-- Evaluation of `float64` at a positive number whose binade is known. -/
theorem float64_eval {x : ℚ} {e k : ℤ} (hx : 0 < x) (he : -1022 ≤ e) (hlo : (2 : ℚ) ^ e ≤ x)
    (hhi : x < 2 ^ (e + 1)) (hk : roundHalfEven (x / 2 ^ (e - 52)) = k) :
    float64 x = k * 2 ^ (e - 52) := by
  unfold float64
  rw [if_neg (not_lt.2 hx.le)]
  unfold roundMag ulp
  rw [binade_eq hx he hlo hhi, hk]

/-- The model agrees with binary64 on one tenth, whose bits are 0x3FB999999999999A. -/
theorem float64_tenth : float64 (1 / 10) = 3602879701896397 / 2 ^ 55 := by
  have h := float64_eval (x := 1 / 10) (e := -4) (k := 7205759403792794)
    (by norm_num) (by norm_num) (by norm_num [zpow_neg]) (by norm_num [zpow_neg])
    (by
      have : (1 / 10 : ℚ) / 2 ^ ((-4 : ℤ) - 52) = 36028797018963968 / 5 := by
        norm_num [zpow_neg]
      rw [this]
      unfold roundHalfEven
      have hf : ⌊(36028797018963968 / 5 : ℚ)⌋ = 7205759403792793 := by
        rw [Int.floor_eq_iff]; constructor <;> norm_num
      rw [hf]
      norm_num)
  rw [h]
  norm_num [zpow_neg]

/-- A duration of 10 s and 100 ns in seconds, as `Duration.Seconds` computes it. -/
theorem Seconds_ten_and_100ns : Seconds (10 * Second + 100) = 5629499590508115 / 2 ^ 49 := by
  have h1 : Int.tdiv (10 * Second + 100) Second = 10 := by decide
  have h2 : Int.tmod (10 * Second + 100) Second = 100 := by decide
  unfold Seconds fadd fdiv
  dsimp only
  rw [h1, h2]
  have e10 : float64 ((10 : ℤ) : ℚ) = ((10 : ℤ) : ℚ) := float64_int 10 (by norm_num)
  have e100 : float64 ((100 : ℤ) : ℚ) = ((100 : ℤ) : ℚ) := float64_int 100 (by norm_num)
  rw [e10, e100]
  have a1 : float64 (((100 : ℤ) : ℚ) / 1000000000) = 944473296573929 / 2 ^ 73 := by
    have h := float64_eval (x := ((100 : ℤ) : ℚ) / 1000000000) (e := -24)
      (k := 7555786372591432)
      (by norm_num) (by norm_num) (by norm_num [zpow_neg]) (by norm_num [zpow_neg])
      (by
        have : (((100 : ℤ) : ℚ) / 1000000000) / 2 ^ ((-24 : ℤ) - 52) =
            590295810358705651712 / 78125 := by
          norm_num [zpow_neg]
        rw [this]
        unfold roundHalfEven
        have hf : ⌊(590295810358705651712 / 78125 : ℚ)⌋ = 7555786372591432 := by
          rw [Int.floor_eq_iff]; constructor <;> norm_num
        rw [hf]
        norm_num)
    rw [h]
    norm_num [zpow_neg]
  rw [a1]
  have h := float64_eval (x := ((10 : ℤ) : ℚ) + 944473296573929 / 2 ^ 73) (e := 3)
    (k := 5629499590508115)
    (by norm_num) (by norm_num) (by norm_num) (by norm_num)
    (by
      have : (((10 : ℤ) : ℚ) + 944473296573929 / 2 ^ 73) / 2 ^ ((3 : ℤ) - 52) =
          94447330601866200847849 / 16777216 := by
        norm_num [zpow_neg]
      rw [this]
      unfold roundHalfEven
      have hf : ⌊(94447330601866200847849 / 16777216 : ℚ)⌋ = 5629499590508115 := by
        rw [Int.floor_eq_iff]; constructor <;> norm_num
      rw [hf]
      norm_num)
  rw [h]
  norm_num [zpow_neg]

/-- The opacity formula at an age of 10 s and 100 ns. -/
theorem opacity_ten_and_100ns :
    fsub 1 (fdiv (Seconds (10 * Second + 100)) 10) = -11258999 / 2 ^ 50 := by
  rw [Seconds_ten_and_100ns]
  unfold fsub fdiv
  have a3 : float64 ((5629499590508115 : ℚ) / 2 ^ 49 / 10) = 1125899918101623 / 2 ^ 50 := by
    have h := float64_exact 1125899918101623 50 (by norm_num) (by norm_num)
    have e : (5629499590508115 : ℚ) / 2 ^ 49 / 10 = ((1125899918101623 : ℤ) : ℚ) / 2 ^ 50 := by
      norm_num
    rw [e, h]
    norm_num
  rw [a3]
  have h := float64_exact (-11258999) 50 (by norm_num) (by norm_num)
  have e : (1 : ℚ) - 1125899918101623 / 2 ^ 50 = ((-11258999 : ℤ) : ℚ) / 2 ^ 50 := by
    norm_num
  rw [e, h]
  norm_num

/-! ## Facts about the scan of the tick -/

theorem scan_fst (clock : Clock) (entries : List (UUID × Payload)) (m : PayloadMap)
    (fragment : List MessageDiv) :
    (scan clock entries m fragment).1 = m.filter (fun e => decide (e.1 ∉
      (entries.filter (fun x => decide (10 * Second < clock x.1 0 - x.2.Created))).map
        Prod.fst)) := by
  induction entries generalizing m fragment with
  | nil => simp [scan]
  | cons x rest ih =>
    obtain ⟨key, payload⟩ := x
    unfold scan
    by_cases h : 10 * Second < clock key 0 - payload.Created
    · have h1 : Seconds (Since (clock key 0) payload.Created) > 10 := (expired_iff _ _).2 h
      rw [if_pos h1, ih, List.filter_cons_of_pos (by simp only [decide_eq_true_eq]; exact h)]
      unfold mapDelete
      rw [List.filter_filter]
      apply List.filter_congr
      intro e _
      by_cases hk : e.1 = key
      · simp [hk]
      · have hb : (e.1 == key) = false := by simpa using hk
        simp [bne, hb]
    · have h1 : ¬ Seconds (Since (clock key 0) payload.Created) > 10 :=
        fun hc => h ((expired_iff _ _).1 hc)
      rw [if_neg h1, ih, List.filter_cons_of_neg (by simpa using h)]

theorem scan_snd (clock : Clock) (entries : List (UUID × Payload)) (m : PayloadMap)
    (fragment : List MessageDiv) :
    (scan clock entries m fragment).2 = fragment ++
      (entries.filter (fun x => decide (clock x.1 0 - x.2.Created ≤ 10 * Second))).map
        (fun x => renderDiv clock x.1 x.2) := by
  induction entries generalizing m fragment with
  | nil => simp [scan]
  | cons x rest ih =>
    obtain ⟨key, payload⟩ := x
    unfold scan
    by_cases h : 10 * Second < clock key 0 - payload.Created
    · have h1 : Seconds (Since (clock key 0) payload.Created) > 10 := (expired_iff _ _).2 h
      rw [if_pos h1, ih, List.filter_cons_of_neg (by simp only [decide_eq_true_eq]; omega)]
    · have h1 : ¬ Seconds (Since (clock key 0) payload.Created) > 10 :=
        fun hc => h ((expired_iff _ _).1 hc)
      rw [if_neg h1, ih, List.filter_cons_of_pos (by simp only [decide_eq_true_eq]; omega)]
      simp

theorem entry_eq_of_key_eq {m : PayloadMap} (hm : (mapKeys m).Nodup) {e x : UUID × Payload}
    (he : e ∈ m) (hx : x ∈ m) (h : e.1 = x.1) : e = x :=
  List.inj_on_of_nodup_map hm he hx h

/-- The map a tick leaves: the entries whose age at their expiry test is at most 10 s. -/
theorem tick_payloadMap (clock : Clock) (m : PayloadMap) (hm : (mapKeys m).Nodup) :
    (tick clock m).payloadMap =
      m.filter (fun e => decide (clock e.1 0 - e.2.Created ≤ 10 * Second)) := by
  have h : (tick clock m).payloadMap = (scan clock m m []).1 := rfl
  rw [h, scan_fst]
  apply List.filter_congr
  intro e he
  simp only [List.mem_map, List.mem_filter, decide_eq_true_eq, decide_eq_decide, not_exists,
    not_and, and_imp]
  constructor
  · intro hno
    by_contra hc
    push_neg at hc
    exact hno e he hc rfl
  · intro hle x hx hexp hkey
    have := entry_eq_of_key_eq hm hx he hkey
    subst this
    omega

/-- The fragment a tick builds: one element for every entry it keeps. -/
theorem tick_fragment (clock : Clock) (m : PayloadMap) :
    (tick clock m).fragment =
      (m.filter (fun e => decide (clock e.1 0 - e.2.Created ≤ 10 * Second))).map
        (fun e => renderDiv clock e.1 e.2) := by
  have h : (tick clock m).fragment = (scan clock m m []).2 := rfl
  rw [h, scan_snd]
  simp

theorem tick_events (clock : Clock) (m : PayloadMap) :
    (tick clock m).events =
      [Event.lock, Event.rangeLoop m (tick clock m).payloadMap,
        Event.mergeFragments (tick clock m).fragment, Event.unlock] := rfl

theorem renderDiv_id (clock : Clock) (key : UUID) (payload : Payload) :
    (renderDiv clock key payload).id = key := rfl

theorem mapKeys_filter_nodup {m : PayloadMap} (hm : (mapKeys m).Nodup) (p : UUID × Payload → Bool) :
    (mapKeys (m.filter p)).Nodup := by
  unfold mapKeys at *
  exact (List.Sublist.map _ (List.filter_sublist m)).nodup hm

/-! ## The broadcast tick: eviction, rendering, locking -/

/-- C1. One broadcast tick removes a record from the store if and only if, at the clock
reading `now` of the record's expiry test, `now - Created` exceeds 10 seconds, and renders
it into the fragment if and only if `now - Created` is at most 10 seconds. The store after
the tick holds exactly the non-expired records of the store before it, each unchanged and
each rendered from its own fields, so its size drops by exactly the number of expired
records; a record aged exactly 10 s is kept, a record aged 11 s is removed. For a clock
that stands still during the tick, `now` is one scan time for all records. -/
theorem tick_evicts_exactly_the_expired (clock : Clock) (m : PayloadMap)
    (hm : (mapKeys m).Nodup) :
    (∀ e ∈ m, e.1 ∉ mapKeys (tick clock m).payloadMap ↔
      10 * Second < clock e.1 0 - e.2.Created) ∧
    (∀ e ∈ m, (∃ d ∈ (tick clock m).fragment, d.id = e.1) ↔
      clock e.1 0 - e.2.Created ≤ 10 * Second) ∧
    (tick clock m).payloadMap =
      m.filter (fun e => decide (clock e.1 0 - e.2.Created ≤ 10 * Second)) ∧
    (tick clock m).fragment =
      (tick clock m).payloadMap.map (fun e => renderDiv clock e.1 e.2) ∧
    (tick clock m).payloadMap.length +
      m.countP (fun e => decide (10 * Second < clock e.1 0 - e.2.Created)) = m.length ∧
    (∀ e ∈ m, clock e.1 0 - e.2.Created = 10 * Second → e ∈ (tick clock m).payloadMap) ∧
    (∀ e ∈ m, clock e.1 0 - e.2.Created = 11 * Second →
      e.1 ∉ mapKeys (tick clock m).payloadMap) := by
  have hmap := tick_payloadMap clock m hm
  have hfrag := tick_fragment clock m
  have hgone : ∀ e ∈ m, e.1 ∉ mapKeys (tick clock m).payloadMap ↔
      10 * Second < clock e.1 0 - e.2.Created := by
    intro e he
    rw [hmap]
    unfold mapKeys
    simp only [List.mem_map, List.mem_filter, decide_eq_true_eq, not_exists, not_and]
    constructor
    · intro h
      by_contra hc
      exact h e ⟨he, by omega⟩ rfl
    · intro h x hx hkey
      have := entry_eq_of_key_eq hm hx.1 he hkey
      subst this
      omega
  refine ⟨hgone, ?_, hmap, ?_, ?_, ?_, ?_⟩
  · intro e he
    rw [hfrag]
    simp only [List.mem_map, List.mem_filter, decide_eq_true_eq]
    constructor
    · rintro ⟨d, ⟨x, ⟨hx, hle⟩, rfl⟩, hid⟩
      have := entry_eq_of_key_eq hm hx he hid
      subst this
      exact hle
    · intro hle
      exact ⟨renderDiv clock e.1 e.2, ⟨e, ⟨he, hle⟩, rfl⟩, rfl⟩
  · rw [hfrag, hmap]
  · rw [hmap, ← List.countP_eq_length_filter]
    have := List.length_eq_countP_add_countP
      (fun e : UUID × Payload => decide (clock e.1 0 - e.2.Created ≤ 10 * Second)) m
    rw [this]
    congr 1
    apply List.countP_congr
    intro e _
    simp only [decide_eq_true_eq, not_le]
  · intro e he h10
    rw [hmap]
    simp only [List.mem_filter, decide_eq_true_eq]
    exact ⟨he, by omega⟩
  · intro e he h11
    rw [hgone e he, h11]
    decide

/-- C1, example: at scan time 11 s, the record created at 1 s (aged exactly 10 s) is kept
and rendered, the record created at 0 s (aged 11 s) is removed, and the size drops from
two to one. -/
theorem tick_evicts_exactly_the_expired_witness :
    (mapKeys twoRecords).Nodup ∧
    (tick (frozenClock (11 * Second)) twoRecords).payloadMap = [(1, hello Second)] ∧
    (tick (frozenClock (11 * Second)) twoRecords).fragment.map MessageDiv.id = [1] ∧
    (2 : UUID) ∉ mapKeys (tick (frozenClock (11 * Second)) twoRecords).payloadMap := by
  have hnd : (mapKeys twoRecords).Nodup := by decide
  have h := tick_evicts_exactly_the_expired (frozenClock (11 * Second)) twoRecords hnd
  have hmap : (tick (frozenClock (11 * Second)) twoRecords).payloadMap = [(1, hello Second)] :=
    h.2.2.1.trans (by decide)
  refine ⟨hnd, hmap, ?_, ?_⟩
  · rw [h.2.2.2.1, hmap]
    rfl
  · rw [hmap]
    decide

/-- C2. Eviction is permanent and idempotent. Take a tick under any clock `c1`, then,
with no insert in between, a tick under any clock `c2` (in particular one reading later
times) that visits the surviving records in any order `m1`: a record the first tick
removed is neither in the store after the second tick nor rendered by it. When the second
tick reads the same time at every expiry test as the first did, it leaves the store
exactly as the first tick left it and renders the same set of records. -/
theorem eviction_is_permanent_and_idempotent (c1 c2 : Clock) (m m1 : PayloadMap)
    (hm : (mapKeys m).Nodup) (hperm : m1.Perm (tick c1 m).payloadMap) :
    (∀ key ∈ mapKeys m, key ∉ mapKeys (tick c1 m).payloadMap →
      key ∉ mapKeys (tick c2 m1).payloadMap ∧ ∀ d ∈ (tick c2 m1).fragment, d.id ≠ key) ∧
    ((∀ key, c2 key 0 = c1 key 0) →
      (tick c2 m1).payloadMap = m1 ∧
      ((tick c2 m1).fragment.map MessageDiv.id).Perm
        ((tick c1 m).fragment.map MessageDiv.id)) := by
  have h1 := tick_payloadMap c1 m hm
  have hnd1 : (mapKeys (tick c1 m).payloadMap).Nodup := by
    rw [h1]; exact mapKeys_filter_nodup hm _
  have hkeys : (mapKeys m1).Perm (mapKeys (tick c1 m).payloadMap) := hperm.map _
  have hndm1 : (mapKeys m1).Nodup := hkeys.nodup_iff.2 hnd1
  have h2 := tick_payloadMap c2 m1 hndm1
  have hf2 := tick_fragment c2 m1
  constructor
  · intro key _ hgone
    have hnot : key ∉ mapKeys m1 := fun hin => hgone (hkeys.subset hin)
    constructor
    · intro hin
      rw [h2] at hin
      unfold mapKeys at hin hnot
      exact hnot ((List.Sublist.map _ (List.filter_sublist m1)).subset hin)
    · intro d hd hid
      rw [hf2] at hd
      simp only [List.mem_map, List.mem_filter] at hd
      obtain ⟨x, ⟨hx, _⟩, rfl⟩ := hd
      apply hnot
      unfold mapKeys
      rw [← hid]
      exact List.mem_map_of_mem _ hx
  · intro hsame
    have hall : ∀ e ∈ m1, decide (c2 e.1 0 - e.2.Created ≤ 10 * Second) = true := by
      intro e he
      have : e ∈ (tick c1 m).payloadMap := hperm.subset he
      rw [h1] at this
      simp only [List.mem_filter, decide_eq_true_eq] at this
      simp only [decide_eq_true_eq, hsame]
      exact this.2
    have hfix : (tick c2 m1).payloadMap = m1 := by
      rw [h2]
      exact List.filter_eq_self.2 hall
    refine ⟨hfix, ?_⟩
    have e2 : (tick c2 m1).fragment.map MessageDiv.id = mapKeys m1 := by
      rw [hf2, List.filter_eq_self.2 hall]
      unfold mapKeys
      simp [renderDiv_id, Function.comp_def]
    have e1 : (tick c1 m).fragment.map MessageDiv.id = mapKeys (tick c1 m).payloadMap := by
      rw [tick_fragment c1 m, h1]
      unfold mapKeys
      simp [renderDiv_id, Function.comp_def]
    rw [e1, e2]
    exact hkeys

/-- C2, example: after a tick at 11 s has removed record 2, a second tick at the same
time on the surviving record leaves the store as it is, and record 2 stays gone. -/
theorem eviction_is_permanent_and_idempotent_witness :
    (mapKeys twoRecords).Nodup ∧
    [((1 : UUID), hello Second)].Perm (tick (frozenClock (11 * Second)) twoRecords).payloadMap ∧
    (2 : UUID) ∉
      mapKeys (tick (frozenClock (11 * Second)) [((1 : UUID), hello Second)]).payloadMap ∧
    (tick (frozenClock (11 * Second)) [((1 : UUID), hello Second)]).payloadMap =
      [((1 : UUID), hello Second)] := by
  have hnd : (mapKeys twoRecords).Nodup := by decide
  have hmap : (tick (frozenClock (11 * Second)) twoRecords).payloadMap = [(1, hello Second)] :=
    (tick_payloadMap _ _ hnd).trans (by decide)
  have hperm : [((1 : UUID), hello Second)].Perm
      (tick (frozenClock (11 * Second)) twoRecords).payloadMap := by
    rw [hmap]
  have h := eviction_is_permanent_and_idempotent (frozenClock (11 * Second))
    (frozenClock (11 * Second)) twoRecords [(1, hello Second)] hnd hperm
  refine ⟨hnd, hperm, ?_, (h.2 (fun _ => rfl)).1⟩
  apply (h.1 2 (by decide) ?_).1
  rw [hmap]
  decide

/-- What the tick writes for a record it renders: the opacity is `1 - a/10`, in float64
arithmetic, for the age `a` in seconds at the clock reading taken for the opacity, which
comes after the reading of the expiry test. It is non-negative exactly when that age is
at most 10 s, at most 1 for a record created at or before that reading, and 0.5 at an
age of 5 s. -/
theorem rendered_opacity (clock : Clock) (m : PayloadMap) :
    ∀ d ∈ (tick clock m).fragment, ∃ p, (d.id, p) ∈ m ∧
      clock d.id 0 - p.Created ≤ 10 * Second ∧
      d.opacity = fsub 1 (fdiv (Seconds (Since (clock d.id 1) p.Created)) 10) ∧
      (0 ≤ d.opacity ↔ clock d.id 1 - p.Created ≤ 10 * Second) ∧
      (p.Created ≤ clock d.id 1 → d.opacity ≤ 1) ∧
      (clock d.id 1 - p.Created = 5 * Second → d.opacity = 1 / 2) := by
  intro d hd
  rw [tick_fragment] at hd
  simp only [List.mem_map, List.mem_filter, decide_eq_true_eq] at hd
  obtain ⟨⟨key, p⟩, ⟨hx, hle⟩, rfl⟩ := hd
  exact ⟨p, hx, hle, rfl, opacity_nonneg_iff _ _, opacity_le_one _ _,
    opacity_five_seconds _ _⟩

/-- C3, at the failing input: a record whose age reads exactly 10 s at the expiry test
is kept and rendered; the opacity is computed from a new reading of the clock, 100 ns
later, and is negative: about -0.00000001. -/
theorem opacity_negative_when_clock_advances :
    (tick driftingClock [(1, hello 0)]).fragment = [renderDiv driftingClock 1 (hello 0)] ∧
    (renderDiv driftingClock 1 (hello 0)).opacity = -11258999 / 2 ^ 50 ∧
    (renderDiv driftingClock 1 (hello 0)).opacity < 0 := by
  have hfrag : (tick driftingClock [(1, hello 0)]).fragment =
      [renderDiv driftingClock 1 (hello 0)] := by
    rw [tick_fragment]
    rfl
  have hsince : Since (driftingClock 1 1) (hello 0).Created = 10 * Second + 100 := by decide
  have hval : (renderDiv driftingClock 1 (hello 0)).opacity = -11258999 / 2 ^ 50 := by
    have : (renderDiv driftingClock 1 (hello 0)).opacity =
        fsub 1 (fdiv (Seconds (Since (driftingClock 1 1) (hello 0).Created)) 10) := rfl
    rw [this, hsince, opacity_ten_and_100ns]
  refine ⟨hfrag, hval, ?_⟩
  rw [hval]
  norm_num

/-- C7, counterexample: in a tick on a store of two records the fragment is pushed
while the mutex is held. -/
theorem tick_pushes_under_lock :
    pushesOutsideLock false (tick (frozenClock (11 * Second)) twoRecords).events = false := by
  rw [tick_events]
  rfl

/-- C7, amended. In every broadcast tick the store lock is taken first and is held for
the in-memory scan and delete and also for the push of the fragment to the SSE stream; it
is released by the deferred unlock when the tick closure returns, after the push. The
steps of the tick are, in this order: lock, the loop over the map that evicts (it takes
the map `m` to the map the tick leaves), the push of the fragment the loop built, unlock.
The mutex is free when the lock is taken, held during the loop, held during the push,
held until the unlock, and free afterwards. -/
theorem tick_holds_lock_across_push (clock : Clock) (m : PayloadMap) :
    (tick clock m).events =
      [Event.lock, Event.rangeLoop m (tick clock m).payloadMap,
        Event.mergeFragments (tick clock m).fragment, Event.unlock] ∧
    heldDuring false (tick clock m).events = [false, true, true, true] ∧
    scansUnderLock false (tick clock m).events = true ∧
    pushesOutsideLock false (tick clock m).events = false ∧
    heldAfter false (tick clock m).events = false := by
  rw [tick_events]
  exact ⟨rfl, rfl, rfl, rfl, rfl⟩

/-! ## Sessions -/

theorem sessLookup_sessAssign (sess : Session) (key : String) (v : Value) :
    sessLookup (sessAssign sess key v) key = some v := by
  obtain ⟨vals⟩ := sess
  unfold sessLookup sessAssign
  by_cases hany : vals.any (fun e => e.1 == key) = true
  · rw [if_pos hany]
    dsimp only
    induction vals with
    | nil => simp at hany
    | cons x rest ih =>
      by_cases hx : x.1 = key
      · simp [List.find?, hx]
      · have hrest : rest.any (fun e => e.1 == key) = true := by
          simpa [List.any_cons, hx] using hany
        have hb : (x.1 == key) = false := by simpa using hx
        simp only [List.map_cons, if_neg hx, List.find?, hb]
        exact ih hrest
  · rw [if_neg hany]
    dsimp only
    have hnone : ∀ e ∈ vals, ¬ ((e.1 == key) = true) := by
      intro e he hc
      exact hany (List.any_eq_true.2 ⟨e, he, hc⟩)
    rw [List.find?_append, List.find?_eq_none.2 hnone]
    simp

/-- A session without a uint32 under "id" gets a drawn id, which is stored and saved. -/
theorem upsertSessionID_new (sess : Session) (Uint32N : Nat → Nat) (saveErr : Option String)
    (hno : ∀ id, sessLookup sess "id" ≠ some (Value.uint32 id)) :
    upsertSessionID (Except.ok sess) Uint32N saveErr =
      match saveErr with
      | some e => ⟨0, some ("failed to save session: " ++ e),
          some (sessAssign sess "id" (Value.uint32 (Uint32N 0xFFFFFF))), true⟩
      | none => ⟨Uint32N 0xFFFFFF, none,
          some (sessAssign sess "id" (Value.uint32 (Uint32N 0xFFFFFF))), true⟩ := by
  cases saveErr <;> simp only [upsertSessionID]

/-- C8. `upsertSessionID` is idempotent per client session. For a session whose values
hold a uint32 under "id" it returns exactly that id with no error, leaves the session as
it is and does not save it. For a session without one it draws an id from
`rand.Uint32N(0xFFFFFF)`, so `0 ≤ id < 0xFFFFFF`, stores it in the session, saves the
session and, when the save succeeds, returns the id; a second call on the resulting
session returns the same id, whatever the random source then holds. When the save fails
the call returns the error and no id. -/
theorem upsertSessionID_idempotent (sess : Session) (Uint32N : Nat → Nat) :
    (∀ id saveErr, sessLookup sess "id" = some (Value.uint32 id) →
      upsertSessionID (Except.ok sess) Uint32N saveErr = ⟨id, none, some sess, false⟩) ∧
    ((∀ id, sessLookup sess "id" ≠ some (Value.uint32 id)) →
      (∀ n, 0 < n → Uint32N n < n) →
      upsertSessionID (Except.ok sess) Uint32N none =
        ⟨Uint32N 0xFFFFFF, none,
          some (sessAssign sess "id" (Value.uint32 (Uint32N 0xFFFFFF))), true⟩ ∧
      Uint32N 0xFFFFFF < 0xFFFFFF ∧
      sessLookup (sessAssign sess "id" (Value.uint32 (Uint32N 0xFFFFFF))) "id" =
        some (Value.uint32 (Uint32N 0xFFFFFF)) ∧
      (∀ rng saveErr,
        upsertSessionID (Except.ok (sessAssign sess "id" (Value.uint32 (Uint32N 0xFFFFFF))))
          rng saveErr =
        ⟨Uint32N 0xFFFFFF, none,
          some (sessAssign sess "id" (Value.uint32 (Uint32N 0xFFFFFF))), false⟩) ∧
      (∀ e, (upsertSessionID (Except.ok sess) Uint32N (some e)).err ≠ none ∧
        (upsertSessionID (Except.ok sess) Uint32N (some e)).id = 0)) := by
  constructor
  · intro id saveErr h
    simp only [upsertSessionID, h]
  · intro hno hrng
    have hstored := sessLookup_sessAssign sess "id" (Value.uint32 (Uint32N 0xFFFFFF))
    refine ⟨?_, hrng 0xFFFFFF (by norm_num), hstored, ?_, ?_⟩
    · rw [upsertSessionID_new sess Uint32N none hno]
    · intro rng saveErr
      simp only [upsertSessionID, hstored]
    · intro e
      rw [upsertSessionID_new sess Uint32N (some e) hno]
      simp

/-- C8, example: a fresh session draws 0x123ABC, and the session that results returns
0x123ABC again without drawing or saving. -/
theorem upsertSessionID_idempotent_witness :
    (upsertSessionID (Except.ok ⟨[]⟩) fixedDraw none).id = 0x123ABC ∧
    (∀ rng saveErr,
      upsertSessionID (Except.ok (sessAssign ⟨[]⟩ "id" (Value.uint32 (fixedDraw 0xFFFFFF))))
        rng saveErr =
      ⟨fixedDraw 0xFFFFFF, none,
        some (sessAssign ⟨[]⟩ "id" (Value.uint32 (fixedDraw 0xFFFFFF))), false⟩) := by
  have h := (upsertSessionID_idempotent ⟨[]⟩ fixedDraw).2
    (fun id => by simp [sessLookup])
    (fun n hn => Nat.mod_lt _ hn)
  refine ⟨?_, h.2.2.2.1⟩
  rw [h.1]
  decide

/-! ## The colour code -/

theorem hexDigitValue_digitChar (d : Nat) (hd : d < 16) :
    hexDigitValue (Nat.digitChar d) = some d := by
  interval_cases d <;> decide

theorem hexValue_append_singleton (ds : List Char) (c : Char) :
    hexValue (ds ++ [c]) = hexValue ds * 16 + (hexDigitValue c).getD 0 := by
  simp [hexValue, List.foldl_append]

theorem hexValue_digit (d : Nat) (hd : d < 16) : hexValue [Nat.digitChar d] = d := by
  simp [hexValue, hexDigitValue_digitChar d hd]

/-- The digit loop writes, in front of the buffer, the hexadecimal numeral of `u`: at
least one digit, no more digits than `u` needs, spelling `u`. -/
theorem fmtHexLoop_spec (fuel u : Nat) (buf : List Char) (hu : u < 16 ^ (fuel + 1)) :
    ∃ ds, fmtHexLoop fuel u buf = ds ++ buf ∧ 1 ≤ ds.length ∧
      (∀ k, u < 16 ^ (k + 1) → ds.length ≤ k + 1) ∧
      (∀ c ∈ ds, ∃ d, d < 16 ∧ c = Nat.digitChar d) ∧ hexValue ds = u := by
  induction fuel generalizing u buf with
  | zero =>
    have hu16 : u < 16 := by simpa using hu
    refine ⟨[Nat.digitChar u], ?_, by simp, ?_, ?_, hexValue_digit u hu16⟩
    · simp [fmtHexLoop]
    · intro k _; simp
    · intro c hc
      simp only [List.mem_singleton] at hc
      exact ⟨u, hu16, hc⟩
  | succ fuel ih =>
    unfold fmtHexLoop
    by_cases h16 : 16 ≤ u
    · rw [if_pos h16]
      have hdiv : u / 16 < 16 ^ (fuel + 1) := by
        rw [Nat.div_lt_iff_lt_mul (by norm_num)]
        calc u < 16 ^ (fuel + 1 + 1) := hu
          _ = 16 ^ (fuel + 1) * 16 := by ring
      obtain ⟨ds, heq, hlen, hbound, hdig, hval⟩ :=
        ih (u / 16) (Nat.digitChar (u % 16) :: buf) hdiv
      refine ⟨ds ++ [Nat.digitChar (u % 16)], ?_, ?_, ?_, ?_, ?_⟩
      · rw [heq]; simp
      · simp
      · intro k hk
        rcases k with _ | k
        · simp at hk; omega
        · have : u / 16 < 16 ^ (k + 1) := by
            rw [Nat.div_lt_iff_lt_mul (by norm_num)]
            calc u < 16 ^ (k + 1 + 1) := hk
              _ = 16 ^ (k + 1) * 16 := by ring
          have := hbound k this
          simp only [List.length_append, List.length_singleton]
          omega
      · intro c hc
        rcases List.mem_append.1 hc with h | h
        · exact hdig c h
        · simp only [List.mem_singleton] at h
          exact ⟨u % 16, Nat.mod_lt _ (by norm_num), h⟩
      · rw [hexValue_append_singleton, hval,
          hexDigitValue_digitChar _ (Nat.mod_lt _ (by norm_num))]
        simp only [Option.getD_some]
        omega
    · rw [if_neg h16]
      have hu16 : u < 16 := by omega
      refine ⟨[Nat.digitChar u], by simp, by simp, ?_, ?_, hexValue_digit u hu16⟩
      · intro k _; simp
      · intro c hc
        simp only [List.mem_singleton] at hc
        exact ⟨u, hu16, hc⟩

theorem hexValue_zeros_append (n : Nat) (ds : List Char) :
    hexValue (List.replicate n '0' ++ ds) = hexValue ds := by
  induction n with
  | zero => simp
  | succ n ih =>
    have h0 : hexDigitValue '0' = some 0 := by decide
    unfold hexValue at ih ⊢
    rw [List.replicate_succ, List.cons_append, List.foldl_cons, h0]
    simpa using ih

/-- `%06x` spells its argument: reading the digits back gives the number. -/
theorem hexValue_fmtHex06 (u : Nat) (hu : u < 16 ^ 8) : hexValue (fmtHex06 u) = u := by
  obtain ⟨ds, heq, _, _, _, hval⟩ := fmtHexLoop_spec 7 u [] hu
  unfold fmtHex06
  dsimp only
  rw [hexValue_zeros_append, heq, List.append_nil, hval]

/-- Below `16^6` the verb `%06x` writes exactly six hexadecimal digits. -/
theorem fmtHex06_six_digits (u : Nat) (hu : u < 16 ^ 6) :
    (fmtHex06 u).length = 6 ∧ ∀ c ∈ fmtHex06 u, (hexDigitValue c).isSome = true := by
  obtain ⟨ds, heq, hlen, hbound, hdig, _⟩ := fmtHexLoop_spec 7 u [] (by omega)
  have hle : ds.length ≤ 6 := hbound 5 hu
  unfold fmtHex06
  dsimp only
  rw [heq, List.append_nil]
  constructor
  · simp only [List.length_append, List.length_replicate]
    omega
  · intro c hc
    rcases List.mem_append.1 hc with h | h
    · have : c = '0' := (List.mem_replicate.1 h).2
      subst this
      decide
    · obtain ⟨d, hd, rfl⟩ := hdig c h
      rw [hexDigitValue_digitChar d hd]
      rfl

/-! ## The ingest handler -/

/-- The three ways the handler ends: 500 when no session identity is obtained, 400 when
the form does not parse or has no non-empty first `message` value, 200 with an insert
otherwise. -/
theorem handleMessage_cases (req : Request) (env : Env) (m : PayloadMap) :
    ((upsertSessionID req.session env.Uint32N req.saveErr).err ≠ none ∧
      handleMessage req env m =
        ⟨500, m, upsertSessionID req.session env.Uint32N req.saveErr⟩) ∨
    ((upsertSessionID req.session env.Uint32N req.saveErr).err = none ∧
      (∀ form msg rest, req.form = Except.ok form →
        formValue form "message" = msg :: rest → msg = "") ∧
      handleMessage req env m =
        ⟨400, m, upsertSessionID req.session env.Uint32N req.saveErr⟩) ∨
    ((upsertSessionID req.session env.Uint32N req.saveErr).err = none ∧
      ∃ form msg rest, req.form = Except.ok form ∧
        formValue form "message" = msg :: rest ∧ msg ≠ "" ∧
        handleMessage req env m =
          ⟨200, mapAssign m env.newID
            (newPayload env (upsertSessionID req.session env.Uint32N req.saveErr).id msg),
            upsertSessionID req.session env.Uint32N req.saveErr⟩) := by
  obtain ⟨session, saveErr, form⟩ := req
  unfold handleMessage
  dsimp only
  generalize upsertSessionID session env.Uint32N saveErr = up
  cases herr : up.err with
  | some e => left; simp
  | none =>
    right
    cases form with
    | error e => left; simp
    | ok f =>
      cases hv : formValue f "message" with
      | nil =>
        left
        refine ⟨rfl, ?_, by simp [hv]⟩
        intro form msg rest hf hval
        have hff : f = form := by simpa using hf
        subst hff
        rw [hv] at hval
        simp at hval
      | cons msg rest =>
        by_cases hm : msg = ""
        · left
          refine ⟨rfl, ?_, by simp [hv, hm]⟩
          intro form msg1 rest1 hf hval
          have hff : f = form := by simpa using hf
          subst hff
          rw [hv] at hval
          have := (List.cons.inj hval).1
          rw [← this]; exact hm
        · right
          exact ⟨rfl, f, msg, rest, rfl, hv, hm, by simp [hv, hm]⟩


/-- C5. The colour stamped on a record is a function of the session identity alone: the
record a successful request inserts carries `colourOf` of the identity that
`upsertSessionID` returned, whatever the message, the time, the position or the store.
For every identity in 0..0xFFFFFF that colour is the character '#' followed by exactly
six hexadecimal digits whose value is the identity, zero-padded on the left; for the
identity 0x123ABC it is "#123abc". -/
theorem colour_is_hex_code_of_identity :
    (∀ req env m, (handleMessage req env m).status = 200 →
      ∃ msg, (handleMessage req env m).payloadMap =
          mapAssign m env.newID (newPayload env (handleMessage req env m).upsert.id msg) ∧
        (newPayload env (handleMessage req env m).upsert.id msg).Colour =
          colourOf (handleMessage req env m).upsert.id) ∧
    (∀ id, id ≤ 0xFFFFFF →
      ∃ ds, (colourOf id).data = '#' :: ds ∧ ds.length = 6 ∧
        (∀ c ∈ ds, (hexDigitValue c).isSome = true) ∧ hexValue ds = id) ∧
    colourOf 0x123ABC = "#123abc" := by
  refine ⟨?_, ?_, by decide⟩
  · intro req env m hok
    rcases handleMessage_cases req env m with ⟨_, h⟩ | ⟨_, _, h⟩ | ⟨_, form, msg, rest, _, _, _, h⟩
    · rw [h] at hok; simp at hok
    · rw [h] at hok; simp at hok
    · exact ⟨msg, by rw [h], rfl⟩
  · intro id hid
    have h6 := fmtHex06_six_digits id (by omega)
    exact ⟨fmtHex06 id, rfl, h6.1, h6.2, hexValue_fmtHex06 id (by omega)⟩

/-- C10. Colour derivation is injective on issued identities: two different session
identities below 0x1000000 get different colour strings. -/
theorem colourOf_injective (a b : Nat) (ha : a < 0x1000000) (hb : b < 0x1000000)
    (hab : a ≠ b) : colourOf a ≠ colourOf b := by
  intro heq
  apply hab
  have hdata : fmtHex06 a = fmtHex06 b := by
    have := congrArg String.data heq
    simpa [colourOf] using this
  have := congrArg hexValue hdata
  rwa [hexValue_fmtHex06 a (by omega), hexValue_fmtHex06 b (by omega)] at this

/-- C10, example: the identities 0x123ABC and 0x123ABD get different colours. -/
theorem colourOf_injective_witness :
    (0x123ABC : Nat) < 0x1000000 ∧ (0x123ABD : Nat) < 0x1000000 ∧
    colourOf 0x123ABC ≠ colourOf 0x123ABD :=
  ⟨by decide, by decide, colourOf_injective 0x123ABC 0x123ABD (by decide) (by decide) (by decide)⟩

theorem mapAssign_fresh (m : PayloadMap) (key : UUID) (p : Payload) (h : key ∉ mapKeys m) :
    mapAssign m key p = m ++ [(key, p)] := by
  unfold mapAssign
  rw [if_neg]
  intro hany
  obtain ⟨e, he, hk⟩ := List.any_eq_true.1 hany
  apply h
  unfold mapKeys
  have : e.1 = key := by simpa using hk
  rw [← this]
  exact List.mem_map_of_mem _ he

theorem mapLookup_mapAssign (m : PayloadMap) (key : UUID) (p : Payload) :
    mapLookup (mapAssign m key p) key = some p := by
  unfold mapLookup mapAssign
  by_cases hany : m.any (fun e => e.1 == key) = true
  · rw [if_pos hany]
    induction m with
    | nil => simp at hany
    | cons x rest ih =>
      by_cases hx : x.1 = key
      · simp [List.find?, hx]
      · have hrest : rest.any (fun e => e.1 == key) = true := by
          simpa [List.any_cons, hx] using hany
        have hb : (x.1 == key) = false := by simpa using hx
        simp only [List.map_cons, if_neg hx, List.find?, hb]
        exact ih hrest
  · rw [if_neg hany]
    have hnone : ∀ e ∈ m, ¬ ((e.1 == key) = true) := by
      intro e he hc
      exact hany (List.any_eq_true.2 ⟨e, he, hc⟩)
    rw [List.find?_append, List.find?_eq_none.2 hnone]
    simp

theorem mapLookup_append_other (m : PayloadMap) (key k : UUID) (p : Payload) (h : k ≠ key) :
    mapLookup (m ++ [(key, p)]) k = mapLookup m k := by
  unfold mapLookup
  rw [List.find?_append]
  have hb : (key == k) = false := by simpa using (Ne.symm h)
  cases hfind : m.find? (fun e => e.1 == k) with
  | some e => simp
  | none => simp [List.find?, hb]

/-- C4, counterexample: a request whose form has no `message` value, sent when the
session store fails, is answered with status 500, not 400. -/
theorem missing_message_with_failed_session_answers_500 :
    brokenSessionRequest.form = Except.ok [] ∧ formValue [] "message" = [] ∧
    (handleMessage brokenSessionRequest (envWith 7) []).status = 500 :=
  ⟨rfl, rfl, rfl⟩

/-- C4, amended. For every POST /message request whose form has no `message` value or
whose first `message` value is the empty string (or whose form does not parse), the
message store is left unchanged, and the handler answers with status 400 whenever
`upsertSessionID` returned no error and with status 500 when it returned one.
Conversely, whenever `upsertSessionID` returns no error, the form parses and the first
`message` value is non-empty, the handler answers 200 and inserts a record under the
generated id. -/
theorem empty_message_is_rejected_without_insert (req : Request) (env : Env)
    (m : PayloadMap) :
    ((∀ form msg rest, req.form = Except.ok form →
        formValue form "message" = msg :: rest → msg = "") →
      (handleMessage req env m).payloadMap = m ∧
      ((handleMessage req env m).upsert.err = none → (handleMessage req env m).status = 400) ∧
      ((handleMessage req env m).upsert.err ≠ none →
        (handleMessage req env m).status = 500)) ∧
    ((handleMessage req env m).upsert.err = none →
      ∀ form msg rest, req.form = Except.ok form →
        formValue form "message" = msg :: rest → msg ≠ "" →
        (handleMessage req env m).status = 200 ∧
        mapLookup (handleMessage req env m).payloadMap env.newID =
          some (newPayload env (handleMessage req env m).upsert.id msg)) ∧
    (handleMessage req env m).upsert =
      upsertSessionID req.session env.Uint32N req.saveErr := by
  rcases handleMessage_cases req env m with
    ⟨herr, h⟩ | ⟨herr, hmiss, h⟩ | ⟨herr, form, msg, rest, hf, hv, hne, h⟩
  · rw [h]
    refine ⟨fun _ => ⟨rfl, fun hc => absurd hc herr, fun _ => rfl⟩, fun hc => absurd hc herr, rfl⟩
  · rw [h]
    refine ⟨fun _ => ⟨rfl, fun _ => rfl, fun hc => absurd herr hc⟩, ?_, rfl⟩
    intro _ form msg rest hf hv hne
    exact absurd (hmiss form msg rest hf hv) hne
  · rw [h]
    refine ⟨fun hmiss => absurd (hmiss form msg rest hf hv) hne, ?_, rfl⟩
    intro _ form1 msg1 rest1 hf1 hv1 _
    have hff : form = form1 := by
      rw [hf] at hf1
      simpa using hf1
    subst hff
    rw [hv] at hv1
    have hmm : msg = msg1 := (List.cons.inj hv1).1
    subst hmm
    exact ⟨rfl, mapLookup_mapAssign _ _ _⟩

/-- C4, example: a new client that submits the empty message gets 400 and the store
keeps its two records. -/
theorem empty_message_is_rejected_without_insert_witness :
    (handleMessage emptyMessageRequest (envWith 7) twoRecords).payloadMap = twoRecords ∧
    (handleMessage emptyMessageRequest (envWith 7) twoRecords).status = 400 := by
  have h := (empty_message_is_rejected_without_insert emptyMessageRequest (envWith 7)
    twoRecords).1 (by
      intro form msg rest hf hv
      have hff : [("message", [""])] = form := by
        simpa [emptyMessageRequest] using hf
      subst hff
      have : [""] = msg :: rest := hv
      exact ((List.cons.inj this).1).symm)
  exact ⟨h.1, h.2.1 rfl⟩

/-- A successful request assigns the new payload to the generated id. -/
theorem handleMessage_ok (req : Request) (env : Env) (m : PayloadMap)
    (hok : (handleMessage req env m).status = 200) :
    ∃ form msg rest, req.form = Except.ok form ∧ formValue form "message" = msg :: rest ∧
      (handleMessage req env m).payloadMap = mapAssign m env.newID
        (newPayload env (upsertSessionID req.session env.Uint32N req.saveErr).id msg) := by
  rcases handleMessage_cases req env m with
    ⟨_, h⟩ | ⟨_, _, h⟩ | ⟨_, form, msg, rest, hf, hv, _, h⟩
  · rw [h] at hok; simp at hok
  · rw [h] at hok; simp at hok
  · exact ⟨form, msg, rest, hf, hv, by rw [h]⟩

theorem handleAll_length (reqs : List (Request × Env)) (m : PayloadMap)
    (hok : ∀ x ∈ reqs, ∀ m1, (handleMessage x.1 x.2 m1).status = 200)
    (hnd : (reqs.map (fun x => x.2.newID)).Nodup)
    (hnew : ∀ x ∈ reqs, x.2.newID ∉ mapKeys m) :
    (handleAll reqs m).length = m.length + reqs.length := by
  induction reqs generalizing m with
  | nil => simp [handleAll]
  | cons x rest ih =>
    obtain ⟨req, env⟩ := x
    unfold handleAll
    obtain ⟨form, msg, tl, _, _, hmap⟩ :=
      handleMessage_ok req env m (hok (req, env) (List.mem_cons_self _ _) m)
    have hfresh : env.newID ∉ mapKeys m := hnew (req, env) (List.mem_cons_self _ _)
    rw [mapAssign_fresh m env.newID _ hfresh] at hmap
    rw [List.map_cons, List.nodup_cons] at hnd
    rw [ih _ (fun y hy => hok y (List.mem_cons_of_mem _ hy)) hnd.2, hmap]
    · simp only [List.length_append, List.length_cons, List.length_nil]
      omega
    · intro y hy hin
      rw [hmap] at hin
      unfold mapKeys at hin
      rw [List.map_append, List.mem_append] at hin
      rcases hin with h | h
      · exact hnew y (List.mem_cons_of_mem _ hy) h
      · simp only [List.map_cons, List.map_nil, List.mem_singleton] at h
        apply hnd.1
        rw [← h]
        exact List.mem_map_of_mem (fun x => x.2.newID) hy

/-- C9. For every store and every successful POST /message whose generated id is not
already a key of the store, the insert adds exactly one record under that id: the store
after the request is the store before it with the new record added, so its size grows by
exactly one, the new record carries the submitted message text and the creation time of
the request, and every record already in the store, its Created time included, is left
unchanged. N such requests with pairwise distinct ids, served one after the other on the
empty store, give size N. -/
theorem insert_adds_exactly_one_record :
    (∀ (req : Request) (env : Env) (m : PayloadMap),
      (handleMessage req env m).status = 200 → env.newID ∉ mapKeys m →
      ∃ form msg rest p, req.form = Except.ok form ∧
        formValue form "message" = msg :: rest ∧ p.Message = msg ∧ p.Created = env.now ∧
        (handleMessage req env m).payloadMap = m ++ [(env.newID, p)] ∧
        (handleMessage req env m).payloadMap.length = m.length + 1 ∧
        mapLookup (handleMessage req env m).payloadMap env.newID = some p ∧
        (∀ key, key ≠ env.newID →
          mapLookup (handleMessage req env m).payloadMap key = mapLookup m key)) ∧
    (∀ reqs : List (Request × Env),
      (∀ x ∈ reqs, ∀ m, (handleMessage x.1 x.2 m).status = 200) →
      (reqs.map (fun x => x.2.newID)).Nodup →
      (handleAll reqs []).length = reqs.length) := by
  constructor
  · intro req env m hok hfresh
    obtain ⟨form, msg, rest, hf, hv, hmap⟩ := handleMessage_ok req env m hok
    have hlook := mapLookup_mapAssign m env.newID
      (newPayload env (upsertSessionID req.session env.Uint32N req.saveErr).id msg)
    rw [← hmap] at hlook
    rw [mapAssign_fresh m env.newID _ hfresh] at hmap
    refine ⟨form, msg, rest, _, hf, hv, rfl, rfl, hmap, ?_, hlook, ?_⟩
    · rw [hmap]; simp
    · intro key hkey
      rw [hmap]
      exact mapLookup_append_other m env.newID key _ hkey
  · intro reqs hok hnd
    have := handleAll_length reqs [] hok hnd (fun _ _ => by simp [mapKeys])
    simpa using this

/-- C9, example: "hello" submitted to the store of two records under the new id 3 gives
three records, the third one carrying "hello" and the time of the request. -/
theorem insert_adds_exactly_one_record_witness :
    (handleMessage helloRequest (envWith 3) twoRecords).status = 200 ∧
    (3 : UUID) ∉ mapKeys twoRecords ∧
    (handleMessage helloRequest (envWith 3) twoRecords).payloadMap.length = 3 ∧
    (∃ p, mapLookup (handleMessage helloRequest (envWith 3) twoRecords).payloadMap 3 = some p ∧
      p.Message = "hello" ∧ p.Created = 0) := by
  have hok : (handleMessage helloRequest (envWith 3) twoRecords).status = 200 := by decide
  have hfresh : (envWith 3).newID ∉ mapKeys twoRecords := by decide
  obtain ⟨form, msg, rest, p, hf, hv, hmsg, hcreated, _, hlen, hlook, _⟩ :=
    insert_adds_exactly_one_record.1 helloRequest (envWith 3) twoRecords hok hfresh
  refine ⟨hok, hfresh, hlen, p, hlook, ?_, hcreated⟩
  have hff : [("message", ["hello"])] = form := by
    simpa [helloRequest] using hf
  subst hff
  have : ["hello"] = msg :: rest := hv
  rw [hmsg, ← (List.cons.inj this).1]

/-! ## The position of a new record -/

theorem roundHalfEven_near (y : ℚ) : |(roundHalfEven y : ℚ) - y| ≤ 1 / 2 := by
  have h1 := Int.floor_le y
  have h2 := Int.lt_floor_add_one y
  unfold roundHalfEven
  rw [abs_le]
  split_ifs <;> push_cast <;> constructor <;> linarith

/-- Rounding to binary64 moves a positive number below 128 by at most `2^-47`. -/
theorem float64_near {x : ℚ} (hx : 0 < x) (h128 : x < 128) : |float64 x - x| ≤ 1 / 2 ^ 47 := by
  have hnot : ¬ x < 0 := not_lt.2 hx.le
  unfold float64
  rw [if_neg hnot]
  unfold roundMag
  have hu := ulp_pos x
  have hb : binade x < 7 := binade_le_of_lt hx (by norm_num; exact h128) (by norm_num)
  have hule : ulp x ≤ 1 / 2 ^ 46 := by
    unfold ulp
    have : (2 : ℚ) ^ (binade x - 52) ≤ 2 ^ (-46 : ℤ) :=
      zpow_le_zpow_right₀ (by norm_num) (by omega)
    calc (2 : ℚ) ^ (binade x - 52) ≤ 2 ^ (-46 : ℤ) := this
      _ = 1 / 2 ^ 46 := by norm_num [zpow_neg]
  have hnear := roundHalfEven_near (x / ulp x)
  have heq : (roundHalfEven (x / ulp x) : ℚ) * ulp x - x =
      ((roundHalfEven (x / ulp x) : ℚ) - x / ulp x) * ulp x := by
    field_simp
  rw [heq, abs_mul, abs_of_pos hu]
  calc |(roundHalfEven (x / ulp x) : ℚ) - x / ulp x| * ulp x ≤ 1 / 2 * ulp x :=
        mul_le_mul_of_nonneg_right hnear hu.le
    _ ≤ 1 / 2 * (1 / 2 ^ 46) := mul_le_mul_of_nonneg_left hule (by norm_num)
    _ = 1 / 2 ^ 47 := by norm_num

theorem mulAdd_range (fused : Bool) (base : ℤ) (r : ℚ) (hb : |base| < 1000)
    (h0 : 0 ≤ r) (h1 : r < 1) :
    (base : ℚ) ≤ mulAdd fused base r 80 ∧ mulAdd fused base r 80 ≤ ((base + 80 : ℤ) : ℚ) := by
  have hb' := abs_lt.1 hb
  have hlo : |base| < 2 ^ 53 := by rw [abs_lt]; constructor <;> omega
  have hhi : |base + 80| < 2 ^ 53 := by rw [abs_lt]; constructor <;> omega
  unfold mulAdd
  split_ifs
  · constructor
    · exact int_le_float64 base hlo (by nlinarith)
    · exact float64_le_int (base + 80) hhi (by push_cast; nlinarith)
  · unfold fadd fmul
    have p0 : ((0 : ℤ) : ℚ) ≤ float64 (r * 80) :=
      int_le_float64 0 (by norm_num) (by push_cast; nlinarith)
    have p1 : float64 (r * 80) ≤ ((80 : ℤ) : ℚ) :=
      float64_le_int 80 (by norm_num) (by push_cast; nlinarith)
    push_cast at p0 p1
    constructor
    · exact int_le_float64 base hlo (by linarith)
    · exact float64_le_int (base + 80) hhi (by push_cast; linarith)

/-- The expression `math.Round((base+r*80)*100) / 100` for a draw `r` in [0, 1): the
float64 quotient by 100 of a whole number of hundredths between `base` and `base + 80`. -/
theorem position_range (fused : Bool) (base : ℤ) (r : ℚ) (hb0 : 1 ≤ base) (hb : base < 40)
    (h0 : 0 ≤ r) (h1 : r < 1) :
    ∃ n : ℤ, base * 100 ≤ n ∧ n ≤ (base + 80) * 100 ∧
      Round (fmul (mulAdd fused base r 80) 100) = n ∧
      position fused base r = float64 ((n : ℚ) / 100) ∧
      (base : ℚ) ≤ position fused base r ∧ position fused base r ≤ ((base + 80 : ℤ) : ℚ) ∧
      |position fused base r - (n : ℚ) / 100| ≤ 1 / 2 ^ 47 := by
  obtain ⟨hlo, hhi⟩ := mulAdd_range fused base r (by rw [abs_lt]; constructor <;> omega) h0 h1
  have w0 : ((base * 100 : ℤ) : ℚ) ≤ fmul (mulAdd fused base r 80) 100 := by
    unfold fmul
    exact int_le_float64 (base * 100) (by rw [abs_lt]; constructor <;> omega)
      (by push_cast; linarith)
  have w1 : fmul (mulAdd fused base r 80) 100 ≤ (((base + 80) * 100 : ℤ) : ℚ) := by
    unfold fmul
    exact float64_le_int ((base + 80) * 100) (by rw [abs_lt]; constructor <;> omega)
      (by push_cast at hhi ⊢; linarith)
  have wpos : ¬ fmul (mulAdd fused base r 80) 100 < 0 := by
    have : (0 : ℚ) ≤ ((base * 100 : ℤ) : ℚ) := by exact_mod_cast (by omega : (0 : ℤ) ≤ base * 100)
    linarith
  have hround : Round (fmul (mulAdd fused base r 80) 100) =
      ((⌊fmul (mulAdd fused base r 80) 100 + 1 / 2⌋ : ℤ) : ℚ) := by
    unfold Round
    rw [if_neg wpos]
  have n0 : base * 100 ≤ ⌊fmul (mulAdd fused base r 80) 100 + 1 / 2⌋ := by
    rw [Int.le_floor]
    linarith
  have n1 : ⌊fmul (mulAdd fused base r 80) 100 + 1 / 2⌋ ≤ (base + 80) * 100 := by
    have : ⌊fmul (mulAdd fused base r 80) 100 + 1 / 2⌋ < (base + 80) * 100 + 1 := by
      rw [Int.floor_lt]
      push_cast at w1 ⊢
      linarith
    omega
  have hpos : position fused base r =
      float64 (((⌊fmul (mulAdd fused base r 80) 100 + 1 / 2⌋ : ℤ) : ℚ) / 100) := by
    unfold position fdiv
    rw [hround]
  generalize ⌊fmul (mulAdd fused base r 80) 100 + 1 / 2⌋ = n at *
  have q0 : ((base : ℤ) : ℚ) ≤ (n : ℚ) / 100 := by
    rw [le_div_iff₀ (by norm_num)]
    exact_mod_cast n0
  have q1 : (n : ℚ) / 100 ≤ ((base + 80 : ℤ) : ℚ) := by
    rw [div_le_iff₀ (by norm_num)]
    exact_mod_cast n1
  refine ⟨n, n0, n1, hround, hpos, ?_, ?_, ?_⟩
  · rw [hpos]
    exact int_le_float64 base (by rw [abs_lt]; constructor <;> omega) q0
  · rw [hpos]
    exact float64_le_int (base + 80) (by rw [abs_lt]; constructor <;> omega) q1
  · rw [hpos]
    apply float64_near
    · have : (0 : ℚ) < ((base : ℤ) : ℚ) := by exact_mod_cast (by omega : (0 : ℤ) < base)
      linarith
    · have : ((base + 80 : ℤ) : ℚ) < 128 := by exact_mod_cast (by omega : base + 80 < 128)
      linarith

/-- C6. For every pair of random draws `r1`, `r2` in [0, 1), the position stamped on a
new record satisfies `10 ≤ X ≤ 90` and `5 ≤ Y ≤ 85`, where
`X = round((10 + 80*r1) * 100) / 100` and `Y = round((5 + 80*r2) * 100) / 100` as the
code evaluates them, in float64 arithmetic with or without a fused multiply-add. Both are
whole multiples of 0.01, rounded to 2 decimals: `math.Round` returns a whole number `n`
of hundredths, and `X` is the float64 value of the two-decimal number `n/100`, the
float64 nearest to it and within `2^-47` of it; likewise `Y`. -/
theorem stamped_position_in_range (env : Env) (sessionID : Nat) (msg : String)
    (h1 : 0 ≤ env.r1 ∧ env.r1 < 1) (h2 : 0 ≤ env.r2 ∧ env.r2 < 1) :
    (newPayload env sessionID msg).X =
      fdiv (Round (fmul (mulAdd env.fused 10 env.r1 80) 100)) 100 ∧
    (newPayload env sessionID msg).Y =
      fdiv (Round (fmul (mulAdd env.fused 5 env.r2 80) 100)) 100 ∧
    10 ≤ (newPayload env sessionID msg).X ∧ (newPayload env sessionID msg).X ≤ 90 ∧
    5 ≤ (newPayload env sessionID msg).Y ∧ (newPayload env sessionID msg).Y ≤ 85 ∧
    (∃ n : ℤ, 1000 ≤ n ∧ n ≤ 9000 ∧
      Round (fmul (mulAdd env.fused 10 env.r1 80) 100) = n ∧
      (newPayload env sessionID msg).X = float64 ((n : ℚ) / 100) ∧
      |(newPayload env sessionID msg).X - (n : ℚ) / 100| ≤ 1 / 2 ^ 47) ∧
    (∃ n : ℤ, 500 ≤ n ∧ n ≤ 8500 ∧
      Round (fmul (mulAdd env.fused 5 env.r2 80) 100) = n ∧
      (newPayload env sessionID msg).Y = float64 ((n : ℚ) / 100) ∧
      |(newPayload env sessionID msg).Y - (n : ℚ) / 100| ≤ 1 / 2 ^ 47) := by
  obtain ⟨n, a0, a1, ar, ae, alo, ahi, anear⟩ :=
    position_range env.fused 10 env.r1 (by norm_num) (by norm_num) h1.1 h1.2
  obtain ⟨k, b0, b1, br, be, blo, bhi, bnear⟩ :=
    position_range env.fused 5 env.r2 (by norm_num) (by norm_num) h2.1 h2.2
  have hX : (newPayload env sessionID msg).X = position env.fused 10 env.r1 := rfl
  have hY : (newPayload env sessionID msg).Y = position env.fused 5 env.r2 := rfl
  push_cast at ae alo ahi anear be blo bhi bnear ar br
  rw [hX, hY]
  refine ⟨rfl, rfl, alo, by linarith, blo, by linarith, ⟨n, by omega, by omega, ar, ae, anear⟩,
    ⟨k, by omega, by omega, br, be, bnear⟩⟩

/-- C6, example: the draws 1/4 and 1/2 give a position inside the ranges. -/
theorem stamped_position_in_range_witness :
    (0 ≤ (envWith 3).r1 ∧ (envWith 3).r1 < 1) ∧ (0 ≤ (envWith 3).r2 ∧ (envWith 3).r2 < 1) ∧
    10 ≤ (newPayload (envWith 3) 0x123ABC "hello").X ∧
    (newPayload (envWith 3) 0x123ABC "hello").X ≤ 90 ∧
    5 ≤ (newPayload (envWith 3) 0x123ABC "hello").Y ∧
    (newPayload (envWith 3) 0x123ABC "hello").Y ≤ 85 := by
  have h1 : 0 ≤ (envWith 3).r1 ∧ (envWith 3).r1 < 1 := by
    constructor <;> norm_num [envWith]
  have h2 : 0 ≤ (envWith 3).r2 ∧ (envWith 3).r2 < 1 := by
    constructor <;> norm_num [envWith]
  have h := stamped_position_in_range (envWith 3) 0x123ABC "hello" h1 h2
  exact ⟨h1, h2, h.2.2.1, h.2.2.2.1, h.2.2.2.2.1, h.2.2.2.2.2.1⟩

/-- The position expression at the draw 1/1024: the code computes
`math.Round(1007.8125) / 100`, and the result is the float64 value of 10.08. -/
theorem position_small_draw (fused : Bool) :
    position fused 10 (1 / 1024) = 5674535530486825 / 2 ^ 49 := by
  have hma : mulAdd fused 10 (1 / 1024) 80 = 645 / 64 := by
    have e1 : float64 (((5 : ℤ) : ℚ) / 2 ^ 6) = ((5 : ℤ) : ℚ) / 2 ^ 6 :=
      float64_exact 5 6 (by norm_num) (by norm_num)
    have e2 : float64 (((645 : ℤ) : ℚ) / 2 ^ 6) = ((645 : ℤ) : ℚ) / 2 ^ 6 :=
      float64_exact 645 6 (by norm_num) (by norm_num)
    unfold mulAdd fadd fmul
    split_ifs
    · have : (10 : ℚ) + 1 / 1024 * 80 = ((645 : ℤ) : ℚ) / 2 ^ 6 := by norm_num
      rw [this, e2]; norm_num
    · have h1 : (1 : ℚ) / 1024 * 80 = ((5 : ℤ) : ℚ) / 2 ^ 6 := by norm_num
      rw [h1, e1]
      have h2 : (10 : ℚ) + ((5 : ℤ) : ℚ) / 2 ^ 6 = ((645 : ℤ) : ℚ) / 2 ^ 6 := by norm_num
      rw [h2, e2]; norm_num
  have hmul : fmul (645 / 64) 100 = 16125 / 16 := by
    have e : float64 (((16125 : ℤ) : ℚ) / 2 ^ 4) = ((16125 : ℤ) : ℚ) / 2 ^ 4 :=
      float64_exact 16125 4 (by norm_num) (by norm_num)
    unfold fmul
    have : (645 : ℚ) / 64 * 100 = ((16125 : ℤ) : ℚ) / 2 ^ 4 := by norm_num
    rw [this, e]; norm_num
  have hround : Round (16125 / 16) = 1008 := by
    unfold Round
    rw [if_neg (by norm_num)]
    have hf : ⌊(16125 / 16 : ℚ) + 1 / 2⌋ = 1008 := by
      rw [Int.floor_eq_iff]; constructor <;> norm_num
    rw [hf]
    norm_num
  unfold position fdiv
  rw [hma, hmul, hround]
  have h := float64_eval (x := (1008 : ℚ) / 100) (e := 3) (k := 5674535530486825)
    (by norm_num) (by norm_num) (by norm_num) (by norm_num)
    (by
      have : ((1008 : ℚ) / 100) / 2 ^ ((3 : ℤ) - 52) = 141863388262170624 / 25 := by
        norm_num [zpow_neg]
      rw [this]
      unfold roundHalfEven
      have hf : ⌊(141863388262170624 / 25 : ℚ)⌋ = 5674535530486824 := by
        rw [Int.floor_eq_iff]; constructor <;> norm_num
      rw [hf]
      norm_num)
  rw [h]
  norm_num [zpow_neg]

end DatastarVoid
